import Mathlib

set_option maxRecDepth 40000

/-!
# Verification of the Umbra stealth-payment scanning core

This development embeds the scanning core of the Umbra protocol performance
repository: the shared-secret derivation (`getSharedSecret` from the
performance test), the secp256k1 curve-point utilities it relies on, the
per-announcement scan pipeline, the announcement-source abstraction, and the
`ConnectWallet` component handler.  Machine integers are modelled as `Nat`
and field elements as `ZMod P`; hex strings are modelled as Lean `String`s.
-/

namespace Umbra

/-! ## secp256k1 constants -/

/-- The secp256k1 field prime `p = 2^256 - 2^32 - 977`. -/
def P : Nat := 115792089237316195423570985008687907853269984665640564039457584007908834671663

/-- The secp256k1 group order `n`. -/
def N : Nat := 115792089237316195423570985008687907852837564279074904382605163141518161494337

/-- x-coordinate of the secp256k1 base point. -/
def Gx : Nat := 55066263022277343669578718895168534326250603453777594175500187360389116729240

/-- y-coordinate of the secp256k1 base point. -/
def Gy : Nat := 32670510020758816978083085130507043184471273380659243275938904335757337482424

/-- The secp256k1 base field. -/
abbrev F := ZMod P

/-! ## Fast modular exponentiation

The curve code computes modular inverses and square roots by exponentiation;
`powFAux` is a binary square-and-multiply evaluator with explicit fuel so that
it is structurally recursive (and hence kernel-reducible on concrete input). -/

/-- Square-and-multiply exponentiation in a monoid, with fuel.
`powMAux f a n = a ^ n` whenever `n < 2 ^ f`. -/
def powMAux {M : Type} [Monoid M] : Nat → M → Nat → M
  | 0, _, _ => 1
  | f + 1, a, n =>
    if n = 0 then 1
    else
      let r := powMAux f (a * a) (n / 2)
      if n % 2 = 1 then a * r else r

/-- Field exponentiation (enough fuel for any 257-bit exponent). -/
def powF (a : F) (n : Nat) : F := powMAux 257 a n

/-- Fast modular exponentiation in `ZMod p` (used by the primality
certificates below). -/
def powZ (p a e : Nat) : ZMod p := powMAux 257 (a : ZMod p) e

/-- Modular inverse by Fermat exponentiation, as the noble secp256k1 library
computes it (`invert` via `x ^ (P-2) mod P`). -/
def finv (t : F) : F := powF t (P - 2)

/-! ## Affine points -/

/-- An affine (not-at-infinity) curve point candidate. -/
structure Pt where
  x : F
  y : F
deriving DecidableEq

/-- Points: `none` is the point at infinity. -/
abbrev Point := Option Pt

/-- The curve membership predicate `y² = x³ + 7`. -/
def onC (p : Pt) : Prop := p.y ^ 2 = p.x ^ 3 + 7

instance (p : Pt) : Decidable (onC p) := by unfold onC; infer_instance

/-- Negation of a point (same x, negated y). -/
def pneg : Point → Point
  | none => none
  | some p => some ⟨p.x, -p.y⟩

/-- Point doubling by the standard affine tangent formula. -/
def pdbl : Point → Point
  | none => none
  | some p =>
    if p.y = 0 then none
    else
      let lam := 3 * p.x ^ 2 * finv (2 * p.y)
      let x3 := lam ^ 2 - 2 * p.x
      some ⟨x3, lam * (p.x - x3) - p.y⟩

/-- Point addition by the standard affine chord-tangent formulas. -/
def padd : Point → Point → Point
  | none, q => q
  | some p, none => some p
  | some p, some q =>
    if p.x = q.x then
      if p.y = -q.y then none
      else pdbl (some p)
    else
      let lam := (q.y - p.y) * finv (q.x - p.x)
      let x3 := lam ^ 2 - p.x - q.x
      some ⟨x3, lam * (p.x - x3) - p.y⟩

/-- Double-and-add scalar multiplication, with fuel on the scalar's bits. -/
def smulAux : Nat → Nat → Point → Point
  | 0, _, _ => none
  | f + 1, k, p =>
    if k = 0 then none
    else
      let r := smulAux f (k / 2) (pdbl p)
      if k % 2 = 1 then padd p r else r

/-- Scalar multiplication of a point (enough fuel for any 257-bit scalar). -/
def smul (k : Nat) (p : Point) : Point := smulAux 257 k p

/-- The secp256k1 base point as an affine point. -/
def Gp : Pt := ⟨(Gx : F), (Gy : F)⟩

/-- The secp256k1 base point. -/
def Gpt : Point := some Gp

/-- The secp256k1 curve `y² = x³ + 7` as a Weierstrass curve over `F`. -/
def secpW : WeierstrassCurve.Affine F :=
  { a₁ := 0, a₂ := 0, a₃ := 0, a₄ := 0, a₆ := 7 }

/-- Curve membership for a possibly-infinite point. -/
def onCP : Point → Prop
  | none => True
  | some pt => onC pt

/-! ## Bytes and hex strings

Keys and announcements travel as `0x`-prefixed hex strings; bytes are `Nat`s
below 256. -/

/-- Value of a single hex digit, if the character is one. -/
def hexDigitVal (c : Char) : Option Nat :=
  if '0' ≤ c ∧ c ≤ '9' then some (c.toNat - '0'.toNat)
  else if 'a' ≤ c ∧ c ≤ 'f' then some (c.toNat - 'a'.toNat + 10)
  else if 'A' ≤ c ∧ c ≤ 'F' then some (c.toNat - 'A'.toNat + 10)
  else none

/-- Whether a character is a hex digit. -/
def isHexDigit (c : Char) : Bool := (hexDigitVal c).isSome

/-- The ethers `isHexString` check: the string is `0x` followed by hex digits. -/
def isHexString (s : String) : Bool :=
  match s.data with
  | '0' :: 'x' :: rest => rest.all isHexDigit
  | _ => false

/-- Big-endian value of a hex digit sequence (`none` on a non-digit). -/
def hexValAux : Nat → List Char → Option Nat
  | acc, [] => some acc
  | acc, c :: cs =>
    match hexDigitVal c with
    | some v => hexValAux (acc * 16 + v) cs
    | none => none

/-- Value of a `0x`-prefixed hex string. -/
def hexVal (s : String) : Option Nat :=
  match s.data with
  | '0' :: 'x' :: rest => hexValAux 0 rest
  | _ => none

/-- The sixteen lowercase hex digits. -/
def hexDigits : List Char :=
  ['0', '1', '2', '3', '4', '5', '6', '7'] ++
  ['8', '9', 'a', 'b', 'c', 'd', 'e', 'f']

/-- Lowercase hex digit of a nibble. -/
def nibbleChar (n : Nat) : Char := hexDigits.getD n '0'

/-- Fixed-width big-endian lowercase hex digits of a number. -/
def natToHexAux : Nat → Nat → List Char → List Char
  | 0, _, acc => acc
  | w + 1, n, acc => natToHexAux w (n / 16) (nibbleChar (n % 16) :: acc)

/-- `w` hex digits (big-endian, lowercase) of `n`. -/
def natToHex (w n : Nat) : List Char := natToHexAux w n []

/-- Parse a hex digit sequence into bytes (two digits per byte). -/
def hexToBytes : List Char → Option (List Nat)
  | [] => some []
  | c1 :: c2 :: cs => do
    let v1 ← hexDigitVal c1
    let v2 ← hexDigitVal c2
    let rest ← hexToBytes cs
    pure ((v1 * 16 + v2) :: rest)
  | [_] => none

/-- Two lowercase hex digits of a byte. -/
def byteToHex (b : Nat) : List Char := [nibbleChar (b / 16 % 16), nibbleChar (b % 16)]

/-- Lowercase hex digits of a byte sequence. -/
def bytesToHex (bs : List Nat) : List Char := (bs.map byteToHex).flatten

/-- `w` big-endian bytes of `n`. -/
def beBytes : Nat → Nat → List Nat
  | 0, _ => []
  | w + 1, n => beBytes w (n / 256) ++ [n % 256]

/-- Big-endian value of a byte sequence. -/
def beVal (bs : List Nat) : Nat := bs.foldl (fun acc b => acc * 256 + b) 0

/-! ## SHA-256

The shared-secret deriver hashes with ethers' `sha256`; this is the standard
FIPS 180-4 SHA-256 over byte sequences. -/

/-- Truncation to a 32-bit word. -/
def w32 (n : Nat) : Nat := n % 4294967296

/-- 32-bit right rotation. -/
def rotr32 (n x : Nat) : Nat := w32 ((x >>> n) ||| (x <<< (32 - n)))

/-- SHA-256 round constants. -/
def sha256K : List Nat :=
  [0x428a2f98, 0x71374491, 0xb5c0fbcf, 0xe9b5dba5, 0x3956c25b, 0x59f111f1] ++
  [0x923f82a4, 0xab1c5ed5, 0xd807aa98, 0x12835b01, 0x243185be, 0x550c7dc3] ++
  [0x72be5d74, 0x80deb1fe, 0x9bdc06a7, 0xc19bf174, 0xe49b69c1, 0xefbe4786] ++
  [0x0fc19dc6, 0x240ca1cc, 0x2de92c6f, 0x4a7484aa, 0x5cb0a9dc, 0x76f988da] ++
  [0x983e5152, 0xa831c66d, 0xb00327c8, 0xbf597fc7, 0xc6e00bf3, 0xd5a79147] ++
  [0x06ca6351, 0x14292967, 0x27b70a85, 0x2e1b2138, 0x4d2c6dfc, 0x53380d13] ++
  [0x650a7354, 0x766a0abb, 0x81c2c92e, 0x92722c85, 0xa2bfe8a1, 0xa81a664b] ++
  [0xc24b8b70, 0xc76c51a3, 0xd192e819, 0xd6990624, 0xf40e3585, 0x106aa070] ++
  [0x19a4c116, 0x1e376c08, 0x2748774c, 0x34b0bcb5, 0x391c0cb3, 0x4ed8aa4a] ++
  [0x5b9cca4f, 0x682e6ff3, 0x748f82ee, 0x78a5636f, 0x84c87814, 0x8cc70208] ++
  [0x90befffa, 0xa4506ceb, 0xbef9a3f7, 0xc67178f2]

/-- SHA-256 initial hash value. -/
def sha256H0 : List Nat :=
  [0x6a09e667, 0xbb67ae85, 0x3c6ef372, 0xa54ff53a] ++
  [0x510e527f, 0x9b05688c, 0x1f83d9ab, 0x5be0cd19]

/-- SHA-256 message-schedule sigma functions. -/
def ssig0 (x : Nat) : Nat := rotr32 7 x ^^^ rotr32 18 x ^^^ (x >>> 3)

def ssig1 (x : Nat) : Nat := rotr32 17 x ^^^ rotr32 19 x ^^^ (x >>> 10)

/-- SHA-256 compression sigma functions. -/
def bsig0 (x : Nat) : Nat := rotr32 2 x ^^^ rotr32 13 x ^^^ rotr32 22 x

def bsig1 (x : Nat) : Nat := rotr32 6 x ^^^ rotr32 11 x ^^^ rotr32 25 x

/-- Extend the 16-word schedule by `t` further words. -/
def sha256Extend : Nat → List Nat → List Nat
  | 0, ws => ws
  | t + 1, ws =>
    let i := ws.length
    let w := w32 (ssig1 (ws.getD (i - 2) 0) + ws.getD (i - 7) 0 +
      ssig0 (ws.getD (i - 15) 0) + ws.getD (i - 16) 0)
    sha256Extend t (ws ++ [w])

/-- One SHA-256 round on the working state `[a,b,c,d,e,f,g,h]`. -/
def sha256Round (st : List Nat) (kw : Nat × Nat) : List Nat :=
  match st with
  | [a, b, c, d, e, f, g, h] =>
    let ch := (e &&& f) ^^^ ((e ^^^ 0xffffffff) &&& g)
    let maj := (a &&& b) ^^^ (a &&& c) ^^^ (b &&& c)
    let t1 := w32 (h + bsig1 e + ch + kw.1 + kw.2)
    let t2 := w32 (bsig0 a + maj)
    [w32 (t1 + t2), a, b, c, w32 (d + t1), e, f, g]
  | _ => st

/-- Group bytes into big-endian 32-bit words. -/
def wordsOf : List Nat → List Nat
  | b0 :: b1 :: b2 :: b3 :: rest => (((b0 * 256 + b1) * 256 + b2) * 256 + b3) :: wordsOf rest
  | _ => []

/-- Compress one 64-byte block into the running hash. -/
def sha256Compress (h : List Nat) (block : List Nat) : List Nat :=
  let ws := sha256Extend 48 (wordsOf block)
  let st := (sha256K.zip ws).foldl sha256Round h
  (h.zip st).map fun p => w32 (p.1 + p.2)

/-- Merkle–Damgård padding for SHA-256. -/
def sha256Pad (msg : List Nat) : List Nat :=
  let l := msg.length
  let zeros := (64 - (l + 9) % 64) % 64
  msg ++ [0x80] ++ List.replicate zeros 0 ++ beBytes 8 (8 * l)

/-- Split a list into chunks of `w` elements (with fuel). -/
def chunksAux {α : Type} : Nat → Nat → List α → List (List α)
  | 0, _, _ => []
  | _, _, [] => []
  | f + 1, w, xs => xs.take w :: chunksAux f w (xs.drop w)

/-- SHA-256 of a byte sequence. -/
def sha256Bytes (msg : List Nat) : List Nat :=
  let padded := sha256Pad msg
  let blocks := chunksAux padded.length 64 padded
  ((blocks.foldl sha256Compress sha256H0).map (beBytes 4)).flatten

/-- The ethers `sha256` function on `0x`-prefixed hex strings: hash the bytes
the string denotes and return the digest as a `0x`-prefixed hex string. -/
def ethersSha256 (s : String) : String :=
  match hexToBytes (s.data.drop 2) with
  | some bs => ⟨'0' :: 'x' :: bytesToHex (sha256Bytes bs)⟩
  | none => ""

/-! ## Keccak-256

Address derivation uses the Ethereum convention: the last 20 bytes of the
Keccak-256 hash of the point's 64-byte coordinate payload. -/

/-- 2^64 (lane modulus). -/
def two64 : Nat := 18446744073709551616

/-- 64-bit left rotation. -/
def rol64 (n v : Nat) : Nat :=
  ((v <<< (n % 64)) ||| (v >>> (64 - n % 64))) % two64

/-- Keccak round constants. -/
def keccakRC : List Nat :=
  [0x0000000000000001, 0x0000000000008082, 0x800000000000808a] ++
  [0x8000000080008000, 0x000000000000808b, 0x0000000080000001] ++
  [0x8000000080008081, 0x8000000000008009, 0x000000000000008a] ++
  [0x0000000000000088, 0x0000000080008009, 0x000000008000000a] ++
  [0x000000008000808b, 0x800000000000008b, 0x8000000000008089] ++
  [0x8000000000008003, 0x8000000000008002, 0x8000000000000080] ++
  [0x000000000000800a, 0x800000008000000a, 0x8000000080008081] ++
  [0x8000000000008080, 0x0000000080000001, 0x8000000080008008]

/-- Keccak rotation offsets, flattened with lane index `x + 5y`. -/
def keccakRot : List Nat :=
  [0, 1, 62, 28, 27] ++
  [36, 44, 6, 55, 20] ++
  [3, 10, 43, 25, 39] ++
  [41, 45, 15, 21, 8] ++
  [18, 2, 61, 56, 14]

/-- One Keccak-f round (θ, ρ, π, χ, ι) on the 25-lane state. -/
def keccakRound (A : List Nat) (rc : Nat) : List Nat :=
  let C := (List.range 5).map fun x =>
    A.getD x 0 ^^^ A.getD (x + 5) 0 ^^^ A.getD (x + 10) 0 ^^^ A.getD (x + 15) 0 ^^^
      A.getD (x + 20) 0
  let D := (List.range 5).map fun x => C.getD ((x + 4) % 5) 0 ^^^ rol64 1 (C.getD ((x + 1) % 5) 0)
  let A1 := (List.range 25).map fun i => A.getD i 0 ^^^ D.getD (i % 5) 0
  let B := (List.range 25).map fun j =>
    let src := (j % 5 + 3 * (j / 5)) % 5 + 5 * (j % 5)
    rol64 (keccakRot.getD src 0) (A1.getD src 0)
  let A2 := (List.range 25).map fun j =>
    let x := j % 5
    let y := j / 5
    B.getD j 0 ^^^ ((B.getD ((x + 1) % 5 + 5 * y) 0 ^^^ 0xffffffffffffffff) &&&
      B.getD ((x + 2) % 5 + 5 * y) 0)
  match A2 with
  | a0 :: rest => (a0 ^^^ rc) :: rest
  | [] => []

/-- The Keccak-f[1600] permutation. -/
def keccakF (A : List Nat) : List Nat := keccakRC.foldl keccakRound A

/-- Little-endian value of up to eight bytes (first byte least significant). -/
def leLane (bs : List Nat) : Nat := bs.foldr (fun b acc => acc * 256 + b) 0

/-- XOR a 136-byte block into the state and permute. -/
def absorbBlock (A : List Nat) (block : List Nat) : List Nat :=
  let ls := (List.range 17).map fun i => leLane ((block.drop (8 * i)).take 8)
  keccakF ((List.range 25).map fun i => A.getD i 0 ^^^ ls.getD i 0)

/-- Original Keccak padding (`0x01 … 0x80`) to a multiple of the 136-byte rate. -/
def keccakPad (msg : List Nat) : List Nat :=
  let zeros := (136 - (msg.length + 1) % 136) % 136
  if zeros = 0 then msg ++ [0x81]
  else msg ++ [0x01] ++ List.replicate (zeros - 1) 0 ++ [0x80]

/-- `w` little-endian bytes of `n`. -/
def leBytes : Nat → Nat → List Nat
  | 0, _ => []
  | w + 1, n => n % 256 :: leBytes w (n / 256)

/-- Keccak-256 of a byte sequence. -/
def keccak256 (msg : List Nat) : List Nat :=
  let padded := keccakPad msg
  let blocks := chunksAux padded.length 136 padded
  let A := blocks.foldl absorbBlock (List.replicate 25 0)
  (((List.range 4).map fun i => leBytes 8 (A.getD i 0)).flatten)

/-! ## Key serialization -/

/-- 64 hex digits of a point's x-coordinate. -/
def xHex (p : Pt) : List Char := natToHex 64 p.x.val

/-- Compressed encoding of a point as hex digits: parity prefix then x. -/
def compressedHex (p : Pt) : List Char :=
  (if p.y.val % 2 = 0 then ['0', '2'] else ['0', '3']) ++ natToHex 64 p.x.val

/-- Uncompressed encoding of a point as hex digits: `04` then x then y. -/
def uncompressedHex (p : Pt) : List Char :=
  '0' :: '4' :: (natToHex 64 p.x.val ++ natToHex 64 p.y.val)

/-- A point as a `0x`-prefixed 132-character uncompressed public-key string. -/
def uncompressedKeyString (p : Pt) : String := ⟨'0' :: 'x' :: uncompressedHex p⟩

/-- Parse an uncompressed public key without the `0x` prefix (`04` + x + y),
checking curve membership, as the noble library's point parser does. -/
def parsePub : List Char → Option Pt
  | '0' :: '4' :: rest =>
    if rest.length = 128 then
      match hexValAux 0 (rest.take 64), hexValAux 0 (rest.drop 64) with
      | some xv, some yv =>
        let pt : Pt := ⟨(xv : F), (yv : F)⟩
        if onC pt then some pt else none
      | _, _ => none
    else none
  | _ => none

/-- Expected total hex-string character counts (from the `lengths` constant of
the repository's utils). -/
def privateKeyChars : Nat := 66

/-- A public key string is a 132-character uncompressed hex string. -/
def publicKeyChars : Nat := 132

/-- Modelled from the spec: `assertValidPrivateKey` lives in the repository's
`src/utils/utils`, which is not among the visible sources; per §4.1 it fails
with an invalid-private-key error unless the key has the fixed scalar length,
is hex-encoded, and is numerically within `(0, order)`. -/
def assertValidPrivateKey (k : String) : Except String Unit :=
  if k.length = privateKeyChars ∧ isHexString k then
    match hexVal k with
    | some v => if 0 < v ∧ v < N then .ok () else .error "Invalid private key"
    | none => .error "Invalid private key"
  else .error "Invalid private key"

/-- Modelled from the spec: `assertValidPoint` lives in the repository's
`src/utils/utils`, which is not among the visible sources; per §4.1/§4.2 it
decodes the public key (exact coordinate lengths) and checks the curve
equation, failing fast with an invalid-public-key error. -/
def assertValidPoint (p : String) : Except String Unit :=
  if p.length = publicKeyChars ∧ isHexString p then
    match parsePub (p.data.drop 2) with
    | some _ => .ok ()
    | none => .error "Invalid public key"
  else .error "Invalid public key"

/-- The noble `getSharedSecret` with compressed output: parse the public key
(65-byte uncompressed, no prefix), validate the scalar range, multiply, and
serialize the product point in compressed form (hex, no `0x`). -/
def nobleGetSharedSecretC (privHex pubHex : List Char) : Option (List Char) := do
  let pt ← parsePub pubHex
  let k ← hexValAux 0 privHex
  if k = 0 ∨ N ≤ k then none
  else
    match smul k (some pt) with
    | none => none
    | some q => some (compressedHex q)

/-- The `getSharedSecret` function of the performance test: validate both hex
strings (length and format), validate point and private key, compute the ECDH
point compressed, strip its prefix and hash with SHA-256. -/
def getSharedSecret (privateKey publicKey : String) : Except String String :=
  if privateKey.length ≠ privateKeyChars || !isHexString privateKey then
    .error "Invalid private key"
  else if publicKey.length ≠ publicKeyChars || !isHexString publicKey then
    .error "Invalid public key"
  else
    Except.bind (assertValidPoint publicKey) fun _ =>
    Except.bind (assertValidPrivateKey privateKey) fun _ =>
    match nobleGetSharedSecretC (privateKey.data.drop 2) (publicKey.data.drop 2) with
    | some sharedSecretHex => .ok (ethersSha256 ⟨'0' :: 'x' :: sharedSecretHex.drop 2⟩)
    | none => .error "Shared secret failed"

/-! ## Stealth key and address derivation (KeyPair)

The `KeyPair` class is not among the visible sources (only its call sites in
the performance test are), so these are modelled from the spec. -/

/-- Modelled from the spec: `KeyPair.getUncompressedFromX` (§4.1
`recoverUncompressedFromX`) is not among the visible sources.  Given only an
x-coordinate it solves the curve equation for both candidate y values, selects
the even-y candidate by convention, and returns the uncompressed point; it
fails with a point-recovery error when no valid y exists. -/
def getUncompressedFromX (x : Nat) : Except String String :=
  if (powF ((x : F) ^ 3 + 7) ((P + 1) / 4)) ^ 2 = (x : F) ^ 3 + 7 then
    .ok (uncompressedKeyString
      (if (powF ((x : F) ^ 3 + 7) ((P + 1) / 4)).val % 2 = 0 then
        ⟨(x : F), powF ((x : F) ^ 3 + 7) ((P + 1) / 4)⟩
      else ⟨(x : F), -(powF ((x : F) ^ 3 + 7) ((P + 1) / 4))⟩))
  else .error "PointRecoveryFailed"

/-- Modelled from the spec: `KeyPair.mulPublicKey` (§4.3 `derivePublicKey`) is
not among the visible sources.  It scalar-multiplies the held public key by a
32-byte scalar, failing with an invalid-scalar error if the scalar is zero or
at least the curve order. -/
def mulPublicKey (S : Pt) (scalarHex : String) : Except String Pt :=
  match hexVal scalarHex with
  | none => .error "Invalid scalar"
  | some k =>
    if k = 0 ∨ N ≤ k then .error "Invalid scalar"
    else
      match smul k (some S) with
      | none => .error "Invalid point"
      | some q => .ok q

/-- Modelled from the spec: `KeyPair.address` (§4.3 `address()`) is not among
the visible sources.  Deterministic hash-based address derivation from the
uncompressed public key: the last 20 bytes of the Keccak-256 hash of the
point's 64-byte coordinate payload, per the Ethereum convention. -/
def ethAddress (p : Pt) : String :=
  ⟨'0' :: 'x' :: bytesToHex ((keccak256 (beBytes 32 p.x.val ++ beBytes 32 p.y.val)).drop 12)⟩

/-- A 32-byte zero-padded hex string of a value (`hexZeroPad(…, 32)`). -/
def hexZeroPad32 (v : Nat) : String := ⟨'0' :: 'x' :: natToHex 64 v⟩

/-- Decidable equality for `Except` results. -/
instance {e a : Type} [DecidableEq e] [DecidableEq a] : DecidableEq (Except e a) := fun x y =>
  match x, y with
  | .ok u, .ok v =>
    if h : u = v then isTrue (by rw [h]) else isFalse (by simp [h])
  | .error u, .error v =>
    if h : u = v then isTrue (by rw [h]) else isFalse (by simp [h])
  | .ok _, .error _ => isFalse (by simp)
  | .error _, .ok _ => isFalse (by simp)

/-! ## Scan engine -/

/-- An on-chain announcement: ephemeral public key x-coordinate and ciphertext
(both hex strings), with block position. -/
structure Announcement where
  pkx : String
  ciphertext : String
  blockNumber : Nat
  logIndex : Nat
deriving DecidableEq

/-- The per-announcement scan result. -/
structure ScanResult where
  announcement : Announcement
  isMatch : Bool
  derivedAddress : Option String
  diagnostic : Option String
deriving DecidableEq

/-- The per-announcement pipeline of the performance test body
(`isAnnouncementForUser`, lines 106–131): recover the ephemeral public key
from the x-coordinate, validate it, derive the shared secret with the viewing
private key, XOR-decrypt the ciphertext into the random number, scalar-multiply
the spending public key by it, and take that key's address. -/
def scanPipeline (viewingPriv : String) (spendingPub : Pt) (ann : Announcement) :
    Except String String :=
  Except.bind (match hexVal ann.pkx with
    | some v => Except.ok v
    | none => Except.error "Invalid announcement x") fun px =>
  Except.bind (getUncompressedFromX px) fun ephemeralPublicKey =>
  Except.bind (assertValidPoint ephemeralPublicKey) fun _ =>
  Except.bind (getSharedSecret viewingPriv ephemeralPublicKey) fun sharedSecret =>
  Except.bind (match hexVal ann.ciphertext with
    | some v => Except.ok v
    | none => Except.error "Invalid ciphertext") fun c =>
  Except.bind (match hexVal sharedSecret with
    | some v => Except.ok v
    | none => Except.error "Invalid shared secret") fun s =>
  Except.bind (mulPublicKey spendingPub (hexZeroPad32 (c ^^^ s))) fun derived =>
  Except.ok (ethAddress derived)

/-- Modelled from the spec: the scan engine's per-announcement containment
(§4.4) is not among the visible sources (the performance test inlines the
pipeline without it).  Any failure in the pipeline degrades the single
announcement to a non-match with a diagnostic; a success is a match exactly
when the candidate address equals the address scanned for. -/
def scanAnnouncement (viewingPriv : String) (spendingPub : Pt) (target : String)
    (ann : Announcement) : ScanResult :=
  match scanPipeline viewingPriv spendingPub ann with
  | .ok addr =>
    if addr = target then ⟨ann, true, some addr, none⟩ else ⟨ann, false, none, none⟩
  | .error e => ⟨ann, false, none, some e⟩

/-- Modelled from the spec: batch scanning (§4.4) maps the per-announcement
scan over the batch; it is total (never throws). -/
def scanAll (viewingPriv : String) (spendingPub : Pt) (target : String)
    (anns : List Announcement) : List ScanResult :=
  anns.map (scanAnnouncement viewingPriv spendingPub target)

/-- Whether a private-key hex string passes every check the pipeline applies
to the caller's viewing key. -/
def privKeyValid (s : String) : Bool :=
  s.length = privateKeyChars && isHexString s &&
    (match hexVal s with
     | some v => decide (0 < v) && decide (v < N)
     | none => false)

/-! ## Announcement generation (sender side)

Announcement generation is entirely outside the visible sources; modelled from
the spec (§2, §8 and the glossary): the sender picks an ephemeral key pair and
a random 32-byte value, encrypts the value by XOR with the ECDH shared secret
between the ephemeral private key and the recipient's viewing public key, and
publishes the ephemeral key's x-coordinate with the ciphertext; the stealth
address is the address of the spending public key scalar-multiplied by the
random value. -/
def generateAnnouncement (spendingPub : Pt) (viewingPub : Pt) (ephemeralPriv : Nat)
    (r : Nat) (blockNumber logIndex : Nat) : Option (Announcement × String) :=
  Option.bind (smul ephemeralPriv Gpt) fun E =>
  Option.bind (getSharedSecret (hexZeroPad32 ephemeralPriv)
      (uncompressedKeyString viewingPub)).toOption fun secret =>
  Option.bind (hexVal secret) fun s =>
  Option.bind (smul r (some spendingPub)) fun D =>
  some (⟨⟨'0' :: 'x' :: natToHex 64 E.x.val⟩, hexZeroPad32 (r ^^^ s),
    blockNumber, logIndex⟩, ethAddress D)

/-! ## Announcement source abstraction

`Umbra.fetchAllAnnouncements` is not among the visible sources (only its call
sites in the performance test are); the two backends are modelled from the
spec (§4.5) over an abstract ordered chain log. -/

/-- Chain configuration (from the test's `chainConfig` literal). -/
structure ChainConfig where
  chainId : Nat
  umbraAddress : String
  startBlock : Nat
  subgraphUrl : String
deriving DecidableEq

/-- Whether an announcement's block lies in the inclusive range. -/
def inRange (s e : Nat) (a : Announcement) : Bool :=
  decide (s ≤ a.blockNumber) && decide (a.blockNumber ≤ e)

/-- All announcements of the chain log in the block range, in log order. -/
def filterRange (chain : List Announcement) (s e : Nat) : List Announcement :=
  chain.filter (inRange s e)

/-- Modelled from the spec: the indexer-backed source queries the remote
indexing service for the block range and paginates internally at the service's
page cap, concatenating pages in block order (§4.5). -/
def indexerFetch (pageSize : Nat) (chain : List Announcement) (s e : Nat) :
    List Announcement :=
  let results := filterRange chain s e
  (chunksAux results.length pageSize results).flatten

/-- Sub-ranges of width at most `w` covering `[s, e]`, with fuel. -/
def splitRanges : Nat → Nat → Nat → Nat → List (Nat × Nat)
  | 0, _, _, _ => []
  | fuel + 1, w, s, e =>
    if s > e then []
    else
      let sub := min (s + w - 1) e
      (s, sub) :: splitRanges fuel w (sub + 1) e

/-- Modelled from the spec: the direct-log-backed source splits the requested
block range into sub-ranges at the provider's block cap, queries each, and
concatenates the results in order (§4.5). -/
def directFetch (w : Nat) (chain : List Announcement) (s e : Nat) :
    List Announcement :=
  ((splitRanges (e + 1 - s) w s e).map fun r => filterRange chain r.1 r.2).flatten

/-- Modelled from the spec: `fetchAllAnnouncements` selects the indexer-backed
source exactly when an indexer endpoint (`subgraphUrl`) is configured, falling
back to the direct-log source otherwise (§4.5 and the test's node-mode switch
`chainConfig.subgraphUrl = ''`). -/
def fetchAllAnnouncements (cfg : ChainConfig) (pageSize w : Nat)
    (chain : List Announcement) (s e : Nat) : List Announcement :=
  if cfg.subgraphUrl ≠ "" then indexerFetch pageSize chain s e
  else directFetch w chain s e

/-- Non-decreasing block/log order on announcements. -/
def annLE (a b : Announcement) : Prop :=
  a.blockNumber < b.blockNumber ∨
    (a.blockNumber = b.blockNumber ∧ a.logIndex ≤ b.logIndex)

instance : DecidableRel annLE := fun a b => by unfold annLE; infer_instance

/-- The point `2G` (concrete test vector). -/
def pt2 : Pt :=
  ⟨(0xc6047f9441ed7d6d3045406e95c07cd85c778e4b8cef3ca7abac09b95c709ee5 : F),
   (0x1ae168fea63dc339a3c58419466ceaeef7f632653266d0e1236431a950cfe52a : F)⟩

/-- The point `3G` (concrete test vector). -/
def pt3 : Pt :=
  ⟨(0xf9308a019258c31049344f85f89d5229b531c845836f99b08601f113bce036f9 : F),
   (0x388f7b0f632de8140fe337e62a37f3566500a99934c2231b6cb9fd7584b8e672 : F)⟩

/-- The point `6G` (concrete test vector; its y-coordinate is odd). -/
def pt6 : Pt :=
  ⟨(0xfff97bd5755eeea420453a14355235d382f6472f8568a18b2f057a1460297556 : F),
   (0xae12777aacfbb620f3be96017f45c560de80f0f6518fe4a03c870c36b075f297 : F)⟩

/-- A malformed private key (wrong length), used as a concrete invalid input. -/
def badKey : String := "0x00"

/-- A concrete announcement used in witnesses. -/
def sampleAnnouncement : Announcement := ⟨"0x01", "0x02", 1, 0⟩

/-! ## ConnectWallet component -/

/-- The observable effects of the `connectWalletWithRedirect` handler. -/
inductive WalletAction where
  | connect
  | push (name : String)
deriving DecidableEq

/-- The `connectWalletWithRedirect` handler of `ConnectWallet.vue`
(lines 15–28): if the user address is truthy and a target is set, only
navigate; if the user address is truthy without a target, do nothing;
otherwise connect the wallet and then navigate when a target is set. -/
def connectWalletWithRedirect (userAddress : String) (toPage : String) :
    List WalletAction :=
  if userAddress ≠ "" && toPage ≠ "" then [.push toPage]
  else if userAddress ≠ "" then []
  else .connect :: (if toPage ≠ "" then [.push toPage] else [])

/-- The `setup` wiring of `ConnectWallet.vue` (lines 45–48): the handler is
built with `props.to || 'home'`. -/
def setupTo (propsTo : Option String) : String :=
  match propsTo with
  | some s => if s = "" then "home" else s
  | none => "home"




/-! # Theorems

Everything below verifies the definitions above; nothing below is part of the
embedding itself. -/

theorem powMAux_eq {M : Type} [Monoid M] (f : Nat) :
    ∀ (n : Nat), n < 2 ^ f → ∀ (a : M), powMAux f a n = a ^ n := by
  induction f with
  | zero =>
    intro n hn a
    interval_cases n
    simp [powMAux]
  | succ f ih =>
    intro n hn a
    by_cases h0 : n = 0
    · simp [powMAux, h0]
    · have hdiv : n / 2 < 2 ^ f := by
        apply Nat.div_lt_of_lt_mul
        calc n < 2 ^ (f + 1) := hn
        _ = 2 ^ f * 2 := by ring
        _ = 2 * 2 ^ f := by ring
      have hrec := ih (n / 2) hdiv (a * a)
      have hsq : (a * a) ^ (n / 2) = a ^ (2 * (n / 2)) := by
        rw [← sq, ← pow_mul]
      by_cases hpar : n % 2 = 1
      · have hn2 : 2 * (n / 2) + 1 = n := by omega
        simp only [powMAux, h0, if_false, hpar, if_true]
        rw [hrec, hsq]
        conv_rhs => rw [← hn2]
        rw [pow_succ']
      · have hn2 : 2 * (n / 2) = n := by omega
        simp only [powMAux, h0, if_false, hpar, if_false]
        rw [hrec, hsq, hn2]

theorem powF_eq (a : F) (n : Nat) (hn : n < 2 ^ 257) : powF a n = a ^ n :=
  powMAux_eq 257 n hn a

theorem powZ_eq (p a e : Nat) (he : e < 2 ^ 257) : powZ p a e = (a : ZMod p) ^ e :=
  powMAux_eq 257 e he _

theorem prime_dvd_prod_mem (q : Nat) (hq : q.Prime) (l : List Nat)
    (hl : ∀ r ∈ l, r.Prime) (h : q ∣ l.prod) : q ∈ l := by
  induction l with
  | nil =>
    simp at h
    exact absurd h hq.ne_one
  | cons r t ih =>
    rw [List.prod_cons] at h
    rcases (Nat.Prime.dvd_mul hq).mp h with h1 | h2
    · have := (Nat.prime_dvd_prime_iff_eq hq (hl r (List.mem_cons_self r t))).mp h1
      exact this ▸ List.mem_cons_self r t
    · exact List.mem_cons_of_mem r (ih (fun s hs => hl s (List.mem_cons_of_mem r hs)) h2)

theorem lucasCert (p a : Nat) (l : List Nat)
    (hprod : l.prod = p - 1)
    (hl : ∀ r ∈ l, r.Prime)
    (hbound : p - 1 < 2 ^ 257)
    (ha : powZ p a (p - 1) = 1)
    (hd : ∀ q ∈ l, powZ p a ((p - 1) / q) ≠ 1) : p.Prime := by
  apply lucas_primality p (a : ZMod p)
  · rw [← powZ_eq p a (p - 1) hbound]
    exact ha
  · intro q hq hdvd
    have hmem : q ∈ l := prime_dvd_prod_mem q hq l hl (hprod ▸ hdvd)
    have hne := hd q hmem
    rwa [powZ_eq p a ((p - 1) / q) (lt_of_le_of_lt (Nat.div_le_self _ _) hbound)] at hne

/-! Primality certificates (Lucas / Pratt chain) for the secp256k1 field prime. -/

theorem prime2 : Nat.Prime 2 := by norm_num

theorem prime3 : Nat.Prime 3 := by norm_num

theorem prime5 : Nat.Prime 5 := by norm_num

theorem prime7 : Nat.Prime 7 := by norm_num

theorem prime11 : Nat.Prime 11 := by norm_num

theorem prime13 : Nat.Prime 13 := by norm_num

theorem prime17 : Nat.Prime 17 := by norm_num

theorem prime19 : Nat.Prime 19 := by norm_num

theorem prime29 : Nat.Prime 29 := by norm_num

theorem prime31 : Nat.Prime 31 := by norm_num

theorem prime53 : Nat.Prime 53 := by norm_num

theorem prime67 : Nat.Prime 67 := by norm_num

theorem prime83 : Nat.Prime 83 := by norm_num

theorem prime97 : Nat.Prime 97 := by norm_num

theorem prime101 : Nat.Prime 101 := by

  apply lucasCert 101 2 [2, 2, 5, 5]

  · decide

  · intro r hr

    fin_cases hr

    exacts [prime2, prime2, prime5, prime5]

  · decide

  · decide

  · intro q hq

    fin_cases hq <;> decide



theorem prime103 : Nat.Prime 103 := by

  apply lucasCert 103 5 [2, 3, 17]

  · decide

  · intro r hr

    fin_cases hr

    exacts [prime2, prime3, prime17]

  · decide

  · decide

  · intro q hq

    fin_cases hq <;> decide



theorem prime131 : Nat.Prime 131 := by

  apply lucasCert 131 2 [2, 5, 13]

  · decide

  · intro r hr

    fin_cases hr

    exacts [prime2, prime5, prime13]

  · decide

  · decide

  · intro q hq

    fin_cases hq <;> decide



theorem prime239 : Nat.Prime 239 := by

  apply lucasCert 239 7 [2, 7, 17]

  · decide

  · intro r hr

    fin_cases hr

    exacts [prime2, prime7, prime17]

  · decide

  · decide

  · intro q hq

    fin_cases hq <;> decide



theorem prime271 : Nat.Prime 271 := by

  apply lucasCert 271 6 [2, 3, 3, 3, 5]

  · decide

  · intro r hr

    fin_cases hr

    exacts [prime2, prime3, prime3, prime3, prime5]

  · decide

  · decide

  · intro q hq

    fin_cases hq <;> decide



theorem prime419 : Nat.Prime 419 := by

  apply lucasCert 419 2 [2, 11, 19]

  · decide

  · intro r hr

    fin_cases hr

    exacts [prime2, prime11, prime19]

  · decide

  · decide

  · intro q hq

    fin_cases hq <;> decide



theorem prime443 : Nat.Prime 443 := by

  apply lucasCert 443 2 [2, 13, 17]

  · decide

  · intro r hr

    fin_cases hr

    exacts [prime2, prime13, prime17]

  · decide

  · decide

  · intro q hq

    fin_cases hq <;> decide



theorem prime887 : Nat.Prime 887 := by

  apply lucasCert 887 5 [2, 443]

  · decide

  · intro r hr

    fin_cases hr

    exacts [prime2, prime443]

  · decide

  · decide

  · intro q hq

    fin_cases hq <;> decide



theorem prime971 : Nat.Prime 971 := by

  apply lucasCert 971 6 [2, 5, 97]

  · decide

  · intro r hr

    fin_cases hr

    exacts [prime2, prime5, prime97]

  · decide

  · decide

  · intro q hq

    fin_cases hq <;> decide



theorem prime1373 : Nat.Prime 1373 := by

  apply lucasCert 1373 2 [2, 2, 7, 7, 7]

  · decide

  · intro r hr

    fin_cases hr

    exacts [prime2, prime2, prime7, prime7, prime7]

  · decide

  · decide

  · intro q hq

    fin_cases hq <;> decide



theorem prime1627 : Nat.Prime 1627 := by

  apply lucasCert 1627 3 [2, 3, 271]

  · decide

  · intro r hr

    fin_cases hr

    exacts [prime2, prime3, prime271]

  · decide

  · decide

  · intro q hq

    fin_cases hq <;> decide



theorem prime2621 : Nat.Prime 2621 := by

  apply lucasCert 2621 2 [2, 2, 5, 131]

  · decide

  · intro r hr

    fin_cases hr

    exacts [prime2, prime2, prime5, prime131]

  · decide

  · decide

  · intro q hq

    fin_cases hq <;> decide



theorem prime2657 : Nat.Prime 2657 := by

  apply lucasCert 2657 3 [2, 2, 2, 2, 2, 83]

  · decide

  · intro r hr

    fin_cases hr

    exacts [prime2, prime2, prime2, prime2, prime2, prime83]

  · decide

  · decide

  · intro q hq

    fin_cases hq <;> decide



theorem prime4423 : Nat.Prime 4423 := by

  apply lucasCert 4423 3 [2, 3, 11, 67]

  · decide

  · intro r hr

    fin_cases hr

    exacts [prime2, prime3, prime11, prime67]

  · decide

  · decide

  · intro q hq

    fin_cases hq <;> decide



theorem prime5323 : Nat.Prime 5323 := by

  apply lucasCert 5323 5 [2, 3, 887]

  · decide

  · intro r hr

    fin_cases hr

    exacts [prime2, prime3, prime887]

  · decide

  · decide

  · intro q hq

    fin_cases hq <;> decide



theorem prime7723 : Nat.Prime 7723 := by

  apply lucasCert 7723 3 [2, 3, 3, 3, 11, 13]

  · decide

  · intro r hr

    fin_cases hr

    exacts [prime2, prime3, prime3, prime3, prime11, prime13]

  · decide

  · decide

  · intro q hq

    fin_cases hq <;> decide



theorem prime13441 : Nat.Prime 13441 := by

  apply lucasCert 13441 11 [2, 2, 2, 2, 2, 2, 2, 3, 5, 7]

  · decide

  · intro r hr

    fin_cases hr

    exacts [prime2, prime2, prime2, prime2, prime2, prime2, prime2, prime3, prime5, prime7]

  · decide

  · decide

  · intro q hq

    fin_cases hq <;> decide



theorem prime20113 : Nat.Prime 20113 := by

  apply lucasCert 20113 10 [2, 2, 2, 2, 3, 419]

  · decide

  · intro r hr

    fin_cases hr

    exacts [prime2, prime2, prime2, prime2, prime3, prime419]

  · decide

  · decide

  · intro q hq

    fin_cases hq <;> decide



theorem prime24809 : Nat.Prime 24809 := by

  apply lucasCert 24809 6 [2, 2, 2, 7, 443]

  · decide

  · intro r hr

    fin_cases hr

    exacts [prime2, prime2, prime2, prime7, prime443]

  · decide

  · decide

  · intro q hq

    fin_cases hq <;> decide



theorem prime41201 : Nat.Prime 41201 := by

  apply lucasCert 41201 3 [2, 2, 2, 2, 5, 5, 103]

  · decide

  · intro r hr

    fin_cases hr

    exacts [prime2, prime2, prime2, prime2, prime5, prime5, prime103]

  · decide

  · decide

  · intro q hq

    fin_cases hq <;> decide



theorem prime96557 : Nat.Prime 96557 := by

  apply lucasCert 96557 2 [2, 2, 101, 239]

  · decide

  · intro r hr

    fin_cases hr

    exacts [prime2, prime2, prime101, prime239]

  · decide

  · decide

  · intro q hq

    fin_cases hq <;> decide



theorem prime1206781 : Nat.Prime 1206781 := by

  apply lucasCert 1206781 10 [2, 2, 3, 5, 20113]

  · decide

  · intro r hr

    fin_cases hr

    exacts [prime2, prime2, prime3, prime5, prime20113]

  · decide

  · decide

  · intro q hq

    fin_cases hq <;> decide



theorem prime7240687 : Nat.Prime 7240687 := by

  apply lucasCert 7240687 3 [2, 3, 1206781]

  · decide

  · intro r hr

    fin_cases hr

    exacts [prime2, prime3, prime1206781]

  · decide

  · decide

  · intro q hq

    fin_cases hq <;> decide



theorem prime13331831 : Nat.Prime 13331831 := by

  apply lucasCert 13331831 13 [2, 5, 971, 1373]

  · decide

  · intro r hr

    fin_cases hr

    exacts [prime2, prime5, prime971, prime1373]

  · decide

  · decide

  · intro q hq

    fin_cases hq <;> decide



theorem prime107590001 : Nat.Prime 107590001 := by

  apply lucasCert 107590001 3 [2, 2, 2, 2, 5, 5, 5, 5, 7, 29, 53]

  · decide

  · intro r hr

    fin_cases hr

    exacts [prime2, prime2, prime2, prime2, prime5, prime5, prime5, prime5, prime7, prime29, prime53]

  · decide

  · decide

  · intro q hq

    fin_cases hq <;> decide



theorem prime173378833005251801 : Nat.Prime 173378833005251801 := by

  apply lucasCert 173378833005251801 6 [2, 2, 2, 5, 5, 2621, 24809, 13331831]

  · decide

  · intro r hr

    fin_cases hr

    exacts [prime2, prime2, prime2, prime5, prime5, prime2621, prime24809, prime13331831]

  · decide

  · decide

  · intro q hq

    fin_cases hq <;> decide



theorem prime22149492674086928081353 : Nat.Prime 22149492674086928081353 := by

  apply lucasCert 22149492674086928081353 5 [2, 2, 2, 3, 5323, 173378833005251801]

  · decide

  · intro r hr

    fin_cases hr

    exacts [prime2, prime2, prime2, prime3, prime5323, prime173378833005251801]

  · decide

  · decide

  · intro q hq

    fin_cases hq <;> decide



theorem prime132896956044521568488119 : Nat.Prime 132896956044521568488119 := by

  apply lucasCert 132896956044521568488119 6 [2, 3, 22149492674086928081353]

  · decide

  · intro r hr

    fin_cases hr

    exacts [prime2, prime3, prime22149492674086928081353]

  · decide

  · decide

  · intro q hq

    fin_cases hq <;> decide



theorem prime255515944373312847190720520512484175977 : Nat.Prime 255515944373312847190720520512484175977 := by

  apply lucasCert 255515944373312847190720520512484175977 3 [2, 2, 2, 7, 7, 11, 1627, 2657, 4423, 41201, 96557, 7240687, 107590001]

  · decide

  · intro r hr

    fin_cases hr

    exacts [prime2, prime2, prime2, prime7, prime7, prime11, prime1627, prime2657, prime4423, prime41201, prime96557, prime7240687, prime107590001]

  · decide

  · decide

  · intro q hq

    fin_cases hq <;> decide



theorem prime205115282021455665897114700593932402728804164701536103180137503955397371 : Nat.Prime 205115282021455665897114700593932402728804164701536103180137503955397371 := by

  apply lucasCert 205115282021455665897114700593932402728804164701536103180137503955397371 10 [2, 3, 5, 29, 29, 31, 7723, 132896956044521568488119, 255515944373312847190720520512484175977]

  · decide

  · intro r hr

    fin_cases hr

    exacts [prime2, prime3, prime5, prime29, prime29, prime31, prime7723, prime132896956044521568488119, prime255515944373312847190720520512484175977]

  · decide

  · decide

  · intro q hq

    fin_cases hq <;> decide



theorem prime115792089237316195423570985008687907853269984665640564039457584007908834671663 : Nat.Prime 115792089237316195423570985008687907853269984665640564039457584007908834671663 := by

  apply lucasCert 115792089237316195423570985008687907853269984665640564039457584007908834671663 3 [2, 3, 7, 13441, 205115282021455665897114700593932402728804164701536103180137503955397371]

  · decide

  · intro r hr

    fin_cases hr

    exacts [prime2, prime3, prime7, prime13441, prime205115282021455665897114700593932402728804164701536103180137503955397371]

  · decide

  · decide

  · intro q hq

    fin_cases hq <;> decide



/-- The secp256k1 field prime is prime. -/
theorem P_prime : Nat.Prime P :=
  prime115792089237316195423570985008687907853269984665640564039457584007908834671663

instance : Fact (Nat.Prime P) := ⟨P_prime⟩

/-! ## Hex round-trip lemmas -/

theorem hexDigitVal_nibbleChar (d : Nat) (h : d < 16) :
    hexDigitVal (nibbleChar d) = some d := by
  interval_cases d <;> decide

theorem isHexDigit_nibbleChar (d : Nat) : isHexDigit (nibbleChar d) = true := by
  by_cases h : d < 16
  · interval_cases d <;> decide
  · have : hexDigits.length ≤ d := by simp [hexDigits]; omega
    rw [nibbleChar, List.getD_eq_default _ _ this]
    decide

theorem mod_mul_base (n M : Nat) (hM : 0 < M) :
    n % (16 * M) = 16 * (n / 16 % M) + n % 16 := by
  have h1 : n / 16 % M < M := Nat.mod_lt _ hM
  have h2 : n % 16 < 16 := Nat.mod_lt _ (by norm_num)
  conv_lhs => rw [← Nat.div_add_mod n 16, ← Nat.div_add_mod (n / 16) M]
  have hre : 16 * (M * (n / 16 / M) + n / 16 % M) + n % 16 =
      (16 * (n / 16 % M) + n % 16) + 16 * M * (n / 16 / M) := by ring
  rw [hre, Nat.add_mul_mod_self_left, Nat.mod_eq_of_lt (by omega)]

theorem hexValAux_natToHexAux (w : Nat) :
    ∀ (n acc : Nat) (cs : List Char),
      hexValAux acc (natToHexAux w n cs) = hexValAux (acc * 16 ^ w + n % 16 ^ w) cs := by
  induction w with
  | zero =>
    intro n acc cs
    simp [natToHexAux, Nat.mod_one]
  | succ w ih =>
    intro n acc cs
    rw [natToHexAux, ih (n / 16) acc (nibbleChar (n % 16) :: cs)]
    have hstep : hexValAux (acc * 16 ^ w + n / 16 % 16 ^ w) (nibbleChar (n % 16) :: cs) =
        hexValAux ((acc * 16 ^ w + n / 16 % 16 ^ w) * 16 + n % 16) cs := by
      rw [hexValAux, hexDigitVal_nibbleChar (n % 16) (Nat.mod_lt _ (by norm_num))]
    rw [hstep]
    congr 1
    have := mod_mul_base n (16 ^ w) (Nat.pos_pow_of_pos w (by norm_num))
    rw [pow_succ]
    ring_nf
    ring_nf at this
    omega

theorem hexVal_string_natToHex (v : Nat) :
    hexVal ⟨'0' :: 'x' :: natToHex 64 v⟩ = some (v % 2 ^ 256) := by
  show hexValAux 0 (natToHex 64 v) = some (v % 2 ^ 256)
  rw [natToHex, hexValAux_natToHexAux 64 v 0 []]
  norm_num [hexValAux]

theorem hexVal_hexZeroPad32 (v : Nat) : hexVal (hexZeroPad32 v) = some (v % 2 ^ 256) :=
  hexVal_string_natToHex v

/-- C5: XOR round-trip: for every 32-byte value `r` and every 32-byte shared
secret `s`, decrypting (XOR over the fixed 32-byte width, as the scan body
does with `BigNumber.xor` and `hexZeroPad`) the ciphertext obtained by
XOR-encrypting `r` with `s` using the same `s` recovers `r` exactly. -/
theorem xor_roundtrip (r s : Nat) (hr : r < 2 ^ 256) (hs : s < 2 ^ 256) :
    (hexVal (hexZeroPad32 (r ^^^ s))).map (fun c => hexZeroPad32 (c ^^^ s)) =
      some (hexZeroPad32 r) := by
  rw [hexVal_hexZeroPad32, Nat.mod_eq_of_lt (Nat.xor_lt_two_pow hr hs)]
  show some (hexZeroPad32 ((r ^^^ s) ^^^ s)) = some (hexZeroPad32 r)
  rw [Nat.xor_cancel_right]

/-- Witness for C5 at `r = 5`, `s = 9`. -/
theorem xor_roundtrip_witness :
    (hexVal (hexZeroPad32 (5 ^^^ 9))).map (fun c => hexZeroPad32 (c ^^^ 9)) =
      some (hexZeroPad32 5) :=
  xor_roundtrip 5 9 (by norm_num) (by norm_num)

/-! ## Fail-fast validation (C7) -/

/-- C7: fail-fast input validation of the shared-secret deriver: a private key
that is not exactly the fixed hex length or not hex-encoded is rejected with
the invalid-private-key error for every public-key argument, and a
well-formed private key with a public key of wrong length, wrong format, or
failing curve membership is rejected with the invalid-public-key error — in
both cases the function returns the error outright, before any
elliptic-curve computation on the inputs. -/
theorem getSharedSecret_fail_fast (priv pub : String) :
    (¬ (priv.length = privateKeyChars ∧ isHexString priv = true) →
      getSharedSecret priv pub = .error "Invalid private key") ∧
    (priv.length = privateKeyChars → isHexString priv = true →
      ¬ (pub.length = publicKeyChars ∧ isHexString pub = true ∧
          (parsePub (pub.data.drop 2)).isSome = true) →
      getSharedSecret priv pub = .error "Invalid public key") := by
  have hc1 : ((decide (priv.length ≠ privateKeyChars) || !isHexString priv) = true) ↔
      ¬ (priv.length = privateKeyChars ∧ isHexString priv = true) := by
    simp [not_and_or]
    tauto
  have hc2 : ((decide (pub.length ≠ publicKeyChars) || !isHexString pub) = true) ↔
      ¬ (pub.length = publicKeyChars ∧ isHexString pub = true) := by
    simp [not_and_or]
    tauto
  constructor
  · intro h
    unfold getSharedSecret
    rw [if_pos (hc1.mpr h)]
  · intro hlen hhex hpub
    unfold getSharedSecret
    rw [if_neg (by rw [hc1]; exact fun hcon => hcon ⟨hlen, hhex⟩)]
    by_cases hbp : pub.length = publicKeyChars ∧ isHexString pub = true
    · have hparse : parsePub (pub.data.drop 2) = none := by
        cases hps : parsePub (pub.data.drop 2) with
        | none => rfl
        | some q => exact absurd ⟨hbp.1, hbp.2, by rw [hps]; rfl⟩ hpub
      rw [if_neg (by rw [hc2]; exact fun hcon => hcon hbp)]
      have havp : assertValidPoint pub = .error "Invalid public key" := by
        unfold assertValidPoint
        rw [if_pos ⟨hbp.1, hbp.2⟩, hparse]
      rw [havp]
      rfl
    · rw [if_pos (hc2.mpr hbp)]

/-- Witness for C7: a short private key is rejected, and with a valid private
key a short public key is rejected. -/
theorem getSharedSecret_fail_fast_witness :
    getSharedSecret badKey (uncompressedKeyString Gp) = .error "Invalid private key" ∧
    getSharedSecret (hexZeroPad32 2) badKey = .error "Invalid public key" :=
  ⟨(getSharedSecret_fail_fast badKey (uncompressedKeyString Gp)).1 (by decide),
   (getSharedSecret_fail_fast (hexZeroPad32 2) badKey).2 (by decide) (by decide)
     (by decide)⟩

/-! ## ConnectWallet guard (C10) -/

/-- C10: the wallet-connection operation is invoked if and only if the user
address is not already set; when it is set the handler performs exactly one
router navigation to the configured target page and never re-connects; and
`setup` always supplies a non-empty target name (the `to` prop defaulting to
`home`), so an already-connected user is always redirected. -/
theorem connectWallet_guard (userAddress : String) (propsTo : Option String) :
    (WalletAction.connect ∈ connectWalletWithRedirect userAddress (setupTo propsTo) ↔
      userAddress = "") ∧
    (userAddress ≠ "" →
      connectWalletWithRedirect userAddress (setupTo propsTo) =
        [WalletAction.push (setupTo propsTo)]) ∧
    setupTo propsTo ≠ "" := by
  have hto : setupTo propsTo ≠ "" := by
    rcases propsTo with _ | str
    · simp [setupTo]
    · by_cases h : str = "" <;> simp [setupTo, h]
  refine ⟨?_, ?_, hto⟩
  · by_cases hu : userAddress = "" <;>
      simp [connectWalletWithRedirect, hu, hto]
  · intro hu
    simp [connectWalletWithRedirect, hu, hto]

/-- Witness for C10 at a connected user with a configured target. -/
theorem connectWallet_guard_witness :
    connectWalletWithRedirect "0xabc" (setupTo (some "send")) =
      [WalletAction.push (setupTo (some "send"))] :=
  (connectWallet_guard "0xabc" (some "send")).2.1 (by decide)

/-! ## Failure containment (C6) -/

theorem getSharedSecret_error_of_invalidPriv (vp pub : String)
    (h : privKeyValid vp = false) : ∃ e, getSharedSecret vp pub = .error e := by
  unfold getSharedSecret
  by_cases h1 : ((decide (vp.length ≠ privateKeyChars) || !isHexString vp) = true)
  · rw [if_pos h1]
    exact ⟨_, rfl⟩
  · have hlen : vp.length = privateKeyChars := by
      by_contra hc
      exact h1 (by simp [hc])
    have hhex : isHexString vp = true := by
      cases hb : isHexString vp
      · exact absurd (by simp [hb]) h1
      · rfl
    rw [if_neg h1]
    by_cases h2 : ((decide (pub.length ≠ publicKeyChars) || !isHexString pub) = true)
    · rw [if_pos h2]
      exact ⟨_, rfl⟩
    · rw [if_neg h2]
      have hpk : assertValidPrivateKey vp = .error "Invalid private key" := by
        unfold assertValidPrivateKey
        rw [if_pos ⟨hlen, hhex⟩]
        rcases hv : hexVal vp with _ | v
        · rfl
        · show (if 0 < v ∧ v < N then Except.ok () else Except.error "Invalid private key") = _
          rw [if_neg]
          intro hcon
          unfold privKeyValid at h
          rw [hv] at h
          simp [hlen, hhex] at h
          omega
      rcases havp : assertValidPoint pub with e | u
      · exact ⟨e, rfl⟩
      · exact ⟨"Invalid private key", by simp [Except.bind, hpk]⟩

theorem scanPipeline_error_of_invalidPriv (vp : String) (S : Pt) (ann : Announcement)
    (h : privKeyValid vp = false) : ∃ e, scanPipeline vp S ann = .error e := by
  unfold scanPipeline
  rcases hx : hexVal ann.pkx with _ | px
  · exact ⟨_, rfl⟩
  · rcases hrec : getUncompressedFromX px with e | eph
    · exact ⟨e, by simp [Except.bind, hrec]⟩
    · rcases havp : assertValidPoint eph with e | u
      · exact ⟨e, by simp [Except.bind, hrec, havp]⟩
      · obtain ⟨e, hgss⟩ := getSharedSecret_error_of_invalidPriv vp eph h
        exact ⟨e, by simp [Except.bind, hrec, havp, hgss]⟩

/-- C6: per-announcement failure containment: batch scanning always returns
exactly one result per announcement (it is a total function, so it never
throws); any pipeline failure on a single announcement degrades only that
announcement to a non-match carrying a diagnostic; and scanning any batch
with an invalid viewing key yields all non-matches. -/
theorem scan_failure_containment :
    (∀ vp S tgt anns, (scanAll vp S tgt anns).length = anns.length) ∧
    (∀ vp S tgt ann e, scanPipeline vp S ann = .error e →
      scanAnnouncement vp S tgt ann = ⟨ann, false, none, some e⟩) ∧
    (∀ vp S tgt anns, privKeyValid vp = false →
      ∀ r ∈ scanAll vp S tgt anns, r.isMatch = false ∧ r.diagnostic.isSome = true) := by
  refine ⟨?_, ?_, ?_⟩
  · intro vp S tgt anns
    simp [scanAll]
  · intro vp S tgt ann e he
    simp [scanAnnouncement, he]
  · intro vp S tgt anns h r hr
    rw [scanAll, List.mem_map] at hr
    obtain ⟨a, _, rfl⟩ := hr
    obtain ⟨e, he⟩ := scanPipeline_error_of_invalidPriv vp S a h
    simp [scanAnnouncement, he]

/-- Witness for C6: a concrete malformed viewing key over a concrete batch
yields a non-match with a diagnostic. -/
theorem scan_failure_containment_witness :
    privKeyValid badKey = false ∧
    ∀ r ∈ scanAll badKey Gp "0x" [sampleAnnouncement],
      r.isMatch = false ∧ r.diagnostic.isSome = true :=
  ⟨by decide, scan_failure_containment.2.2 badKey Gp "0x" [sampleAnnouncement] (by decide)⟩

/-! ## Backend equivalence (C8) -/

theorem chunksAux_flatten {α : Type} (w : Nat) (hw : 0 < w) :
    ∀ (fuel : Nat) (xs : List α), xs.length ≤ fuel →
      (chunksAux fuel w xs).flatten = xs := by
  intro fuel
  induction fuel with
  | zero =>
    intro xs hxs
    rw [List.length_eq_zero.mp (Nat.le_zero.mp hxs)]
    rfl
  | succ f ih =>
    intro xs hxs
    cases xs with
    | nil => rfl
    | cons x t =>
      have hdrop : ((x :: t).drop w).length ≤ f := by
        rw [List.length_drop]
        simp only [List.length_cons] at hxs ⊢
        omega
      have hch : chunksAux (f + 1) w (x :: t) =
          (x :: t).take w :: chunksAux f w ((x :: t).drop w) := rfl
      rw [hch, List.flatten_cons, ih _ hdrop]
      exact List.take_append_drop w (x :: t)

theorem filterRange_nil_of_gt (chain : List Announcement) (s e : Nat) (h : e < s) :
    filterRange chain s e = [] := by
  unfold filterRange
  apply List.filter_eq_nil_iff.mpr
  intro a _
  simp [inRange]
  omega

theorem filterRange_nil_of_lb (chain : List Announcement) (m : Nat)
    (h : ∀ a ∈ chain, m < a.blockNumber) (s : Nat) : filterRange chain s m = [] := by
  unfold filterRange
  apply List.filter_eq_nil_iff.mpr
  intro a ha
  have := h a ha
  simp [inRange]
  omega

theorem annLE_block {a b : Announcement} (h : annLE a b) :
    a.blockNumber ≤ b.blockNumber := by
  rcases h with h | ⟨h, _⟩
  · omega
  · omega

theorem filterRange_split (chain : List Announcement) (hs : List.Sorted annLE chain)
    (s m e : Nat) (hsm : s ≤ m) (hme : m ≤ e) :
    filterRange chain s m ++ filterRange chain (m + 1) e = filterRange chain s e := by
  induction chain with
  | nil => simp [filterRange]
  | cons a t ih =>
    obtain ⟨hrel, hst⟩ := List.sorted_cons.mp hs
    by_cases h1 : a.blockNumber < s
    · have e1 : inRange s m a = false := by simp [inRange]; omega
      have e2 : inRange (m + 1) e a = false := by simp [inRange]; omega
      have e3 : inRange s e a = false := by simp [inRange]; omega
      simp only [filterRange, List.filter_cons, e1, e2, e3, if_false, Bool.false_eq_true]
      exact ih hst
    · by_cases h2 : a.blockNumber ≤ m
      · have e1 : inRange s m a = true := by simp [inRange]; omega
        have e2 : inRange (m + 1) e a = false := by simp [inRange]; omega
        have e3 : inRange s e a = true := by simp [inRange]; omega
        simp only [filterRange, List.filter_cons, e1, e2, e3, if_true, Bool.false_eq_true,
          if_false, List.cons_append]
        exact congrArg (a :: ·) (ih hst)
      · have hlb : ∀ b ∈ a :: t, m < b.blockNumber := by
          intro b hb
          rcases List.mem_cons.mp hb with rfl | hb
          · omega
          · have := annLE_block (hrel b hb)
            omega
        rw [filterRange_nil_of_lb (a :: t) m hlb s, List.nil_append]
        unfold filterRange
        apply List.filter_congr
        intro b hb
        have hbm := hlb b hb
        have hb1 : decide (m + 1 ≤ b.blockNumber) = true := by simp; omega
        have hb2 : decide (s ≤ b.blockNumber) = true := by simp; omega
        simp [inRange, hb1, hb2]

theorem directFetch_filterRange (w : Nat) (hw : 0 < w) (chain : List Announcement)
    (hs : List.Sorted annLE chain) :
    ∀ (fuel s e : Nat), e + 1 - s ≤ fuel →
      ((splitRanges fuel w s e).map fun r => filterRange chain r.1 r.2).flatten =
        filterRange chain s e := by
  intro fuel
  induction fuel with
  | zero =>
    intro s e hf
    rw [filterRange_nil_of_gt chain s e (by omega)]
    rfl
  | succ f ih =>
    intro s e hf
    by_cases hse : s > e
    · rw [splitRanges, if_pos hse, filterRange_nil_of_gt chain s e (by omega)]
      rfl
    · rw [splitRanges, if_neg hse]
      simp only [List.map_cons, List.flatten_cons]
      rw [ih (min (s + w - 1) e + 1) e (by omega)]
      exact filterRange_split chain hs s (min (s + w - 1) e) e (by omega) (by omega)

/-- C8: backend equivalence and selection: fetching the same block range from
the indexer-backed and the direct-log-backed source yields identical
announcement sequences, in non-decreasing block/log order, and
`fetchAllAnnouncements` uses the indexer backend exactly when an indexer
endpoint is configured, falling back to the direct-log backend otherwise. -/
theorem backend_equivalence (pageSize w : Nat) (hp : 0 < pageSize) (hw : 0 < w)
    (chain : List Announcement) (hs : List.Sorted annLE chain) (s e : Nat) :
    indexerFetch pageSize chain s e = directFetch w chain s e ∧
    List.Sorted annLE (indexerFetch pageSize chain s e) ∧
    (∀ cfg : ChainConfig, fetchAllAnnouncements cfg pageSize w chain s e =
      if cfg.subgraphUrl ≠ "" then indexerFetch pageSize chain s e
      else directFetch w chain s e) := by
  have hidx : indexerFetch pageSize chain s e = filterRange chain s e :=
    chunksAux_flatten pageSize hp _ _ le_rfl
  have hdir : directFetch w chain s e = filterRange chain s e :=
    directFetch_filterRange w hw chain hs (e + 1 - s) s e le_rfl
  refine ⟨hidx.trans hdir.symm, ?_, fun cfg => rfl⟩
  rw [hidx]
  exact hs.filter _

/-- Witness for C8 on a concrete two-announcement chain. -/
theorem backend_equivalence_witness :
    indexerFetch 1 [sampleAnnouncement, ⟨"0x03", "0x04", 2, 0⟩] 1 2 =
      directFetch 1 [sampleAnnouncement, ⟨"0x03", "0x04", 2, 0⟩] 1 2 ∧
    List.Sorted annLE (indexerFetch 1 [sampleAnnouncement, ⟨"0x03", "0x04", 2, 0⟩] 1 2) :=
  ⟨(backend_equivalence 1 1 (by decide) (by decide) _ (by decide) 1 2).1,
   (backend_equivalence 1 1 (by decide) (by decide) _ (by decide) 1 2).2.1⟩

/-! ## Serialization plumbing -/

theorem natToHexAux_length (w : Nat) :
    ∀ (n : Nat) (acc : List Char), (natToHexAux w n acc).length = w + acc.length := by
  induction w with
  | zero => intro n acc; simp [natToHexAux]
  | succ w ih =>
    intro n acc
    rw [natToHexAux, ih]
    simp
    omega

theorem natToHex_length (w n : Nat) : (natToHex w n).length = w := by
  rw [natToHex, natToHexAux_length]
  rfl

theorem natToHexAux_hexDigits (w : Nat) :
    ∀ (n : Nat) (acc : List Char), (∀ c ∈ acc, isHexDigit c = true) →
      ∀ c ∈ natToHexAux w n acc, isHexDigit c = true := by
  induction w with
  | zero => intro n acc hacc; exact hacc
  | succ w ih =>
    intro n acc hacc
    apply ih
    intro c hc
    rcases List.mem_cons.mp hc with rfl | hc
    · exact isHexDigit_nibbleChar _
    · exact hacc c hc

theorem natToHex_hexDigits (w n : Nat) : ∀ c ∈ natToHex w n, isHexDigit c = true :=
  natToHexAux_hexDigits w n [] (by intro c hc; cases hc)

theorem uncompressedKeyString_length (p : Pt) :
    (uncompressedKeyString p).length = publicKeyChars := by
  show ('0' :: 'x' :: uncompressedHex p).length = publicKeyChars
  simp [uncompressedHex, natToHex_length, publicKeyChars]

theorem uncompressedKeyString_isHex (p : Pt) :
    isHexString (uncompressedKeyString p) = true := by
  show isHexString ⟨'0' :: 'x' :: uncompressedHex p⟩ = true
  rw [isHexString]
  show ('0' :: '4' :: (natToHex 64 p.x.val ++ natToHex 64 p.y.val)).all isHexDigit = true
  rw [List.all_eq_true]
  intro c hc
  rcases List.mem_cons.mp hc with rfl | hc
  · rfl
  · rcases List.mem_cons.mp hc with rfl | hc
    · rfl
    · rcases List.mem_append.mp hc with hc | hc
      · exact natToHex_hexDigits 64 p.x.val c hc
      · exact natToHex_hexDigits 64 p.y.val c hc

theorem hexValAux_natToHex_val (v : Nat) (hv : v < 2 ^ 256) :
    hexValAux 0 (natToHex 64 v) = some v := by
  rw [natToHex, hexValAux_natToHexAux 64 v 0 []]
  rw [hexValAux]
  congr 1
  have h16 : (16 : Nat) ^ 64 = 2 ^ 256 := by norm_num
  rw [h16]
  omega

theorem parsePub_uncompressedHex (p : Pt) (h : onC p) :
    parsePub (uncompressedHex p) = some p := by
  have hx : p.x.val < 2 ^ 256 := lt_trans (ZMod.val_lt p.x) (by norm_num [P])
  have hy : p.y.val < 2 ^ 256 := lt_trans (ZMod.val_lt p.y) (by norm_num [P])
  show parsePub ('0' :: '4' :: (natToHex 64 p.x.val ++ natToHex 64 p.y.val)) = some p
  rw [parsePub]
  rw [if_pos (by simp [natToHex_length])]
  rw [List.take_left' (natToHex_length 64 p.x.val), List.drop_left' (natToHex_length 64 p.x.val)]
  rw [hexValAux_natToHex_val p.x.val hx, hexValAux_natToHex_val p.y.val hy]
  have hxx : ((p.x.val : Nat) : F) = p.x := ZMod.natCast_rightInverse p.x
  have hyy : ((p.y.val : Nat) : F) = p.y := ZMod.natCast_rightInverse p.y
  simp only [hxx, hyy]
  rw [if_pos h]

/-! ## Negation commutes with the curve operations -/

theorem finv_neg (t : F) : finv (-t) = -finv t := by
  unfold finv powF
  rw [powMAux_eq 257 (P - 2) (by norm_num [P]) (-t),
    powMAux_eq 257 (P - 2) (by norm_num [P]) t, neg_pow]
  have hodd : Odd (P - 2) := by
    rw [Nat.odd_iff]
    decide
  rw [hodd.neg_one_pow]
  ring

theorem pdbl_pneg (p : Point) : pdbl (pneg p) = pneg (pdbl p) := by
  cases p with
  | none => rfl
  | some pt =>
    by_cases hy : pt.y = 0
    · have h2 : -pt.y = 0 := by rw [hy]; ring
      show pdbl (some ⟨pt.x, -pt.y⟩) = pneg (pdbl (some pt))
      simp [pdbl, hy, h2, pneg]
    · have h2 : ¬ (-pt.y = 0) := fun hc => hy (neg_eq_zero.mp hc)
      show pdbl (some ⟨pt.x, -pt.y⟩) = pneg (pdbl (some pt))
      simp only [pdbl, if_neg hy, if_neg h2, pneg]
      rw [show (2 : F) * -pt.y = -(2 * pt.y) from by ring, finv_neg]
      simp only [Option.some.injEq, Pt.mk.injEq]
      constructor
      · ring
      · ring

theorem padd_pneg (p q : Point) : padd (pneg p) (pneg q) = pneg (padd p q) := by
  cases p with
  | none => cases q <;> rfl
  | some pt =>
    cases q with
    | none => rfl
    | some qt =>
      show padd (some ⟨pt.x, -pt.y⟩) (some ⟨qt.x, -qt.y⟩) = pneg (padd (some pt) (some qt))
      by_cases hx : pt.x = qt.x
      · by_cases hy : pt.y = -qt.y
        · have hy' : -pt.y = - -qt.y := by rw [hy]
          simp only [padd, if_pos hx, if_pos hy, if_pos hy', pneg]
        · have hy' : ¬ (-pt.y = - -qt.y) := fun hc => hy (neg_injective hc)
          simp only [padd, if_pos hx, if_neg hy, if_neg hy']
          exact pdbl_pneg (some pt)
      · simp only [padd, if_neg hx, pneg]
        simp only [Option.some.injEq, Pt.mk.injEq]
        constructor
        · ring
        · ring

theorem smulAux_pneg (f : Nat) : ∀ (k : Nat) (p : Point),
    smulAux f k (pneg p) = pneg (smulAux f k p) := by
  induction f with
  | zero => intro k p; rfl
  | succ f ih =>
    intro k p
    by_cases hk : k = 0
    · simp only [smulAux, hk, if_true]
      rfl
    · simp only [smulAux, if_neg hk]
      rw [pdbl_pneg, ih]
      by_cases hpar : k % 2 = 1
      · simp only [hpar, if_true]
        exact padd_pneg p (smulAux f (k / 2) (pdbl p))
      · simp only [hpar, if_false]

theorem smul_pneg (k : Nat) (p : Point) : smul k (pneg p) = pneg (smul k p) :=
  smulAux_pneg 257 k p

/-! ## Characterization of the shared secret -/

theorem isHexString_shape (s : String) (h : isHexString s = true) :
    s.data = '0' :: 'x' :: s.data.drop 2 := by
  unfold isHexString at h
  split at h
  · rename_i rest heq
    rw [heq]
    rfl
  · exact absurd h (by simp)

theorem compressedHex_drop (q : Pt) : (compressedHex q).drop 2 = natToHex 64 q.x.val := by
  unfold compressedHex
  by_cases hp : q.y.val % 2 = 0 <;> simp [hp]

theorem getSharedSecret_spec (priv : String) (k : Nat)
    (hk : hexVal priv = some k) (hpl : priv.length = privateKeyChars)
    (hph : isHexString priv = true) (hk0 : 0 < k) (hkN : k < N)
    (B : Pt) (hB : onC B) :
    getSharedSecret priv (uncompressedKeyString B) =
      (match smul k (some B) with
       | some q => .ok (ethersSha256 ⟨'0' :: 'x' :: natToHex 64 q.x.val⟩)
       | none => .error "Shared secret failed") := by
  unfold getSharedSecret
  rw [if_neg (by simp [hpl, hph])]
  rw [if_neg (by simp [uncompressedKeyString_length B, uncompressedKeyString_isHex B])]
  have hdrop : (uncompressedKeyString B).data.drop 2 = uncompressedHex B := rfl
  have havp : assertValidPoint (uncompressedKeyString B) = .ok () := by
    unfold assertValidPoint
    rw [if_pos ⟨uncompressedKeyString_length B, uncompressedKeyString_isHex B⟩, hdrop,
      parsePub_uncompressedHex B hB]
  have hpk : assertValidPrivateKey priv = .ok () := by
    unfold assertValidPrivateKey
    rw [if_pos ⟨hpl, hph⟩, hk]
    show (if 0 < k ∧ k < N then Except.ok () else Except.error "Invalid private key") = _
    rw [if_pos ⟨hk0, hkN⟩]
  rw [havp]
  show Except.bind (assertValidPrivateKey priv) _ = _
  rw [hpk]
  show (match nobleGetSharedSecretC (priv.data.drop 2) ((uncompressedKeyString B).data.drop 2) with
        | some sharedSecretHex => Except.ok (ethersSha256 ⟨'0' :: 'x' :: sharedSecretHex.drop 2⟩)
        | none => Except.error "Shared secret failed") = _
  have hpriv2 : hexValAux 0 (priv.data.drop 2) = some k := by
    have hsh := isHexString_shape priv hph
    unfold hexVal at hk
    rw [hsh] at hk
    exact hk
  have hnoble : nobleGetSharedSecretC (priv.data.drop 2) ((uncompressedKeyString B).data.drop 2) =
      (match smul k (some B) with
       | some q => some (compressedHex q)
       | none => none) := by
    rw [hdrop]
    unfold nobleGetSharedSecretC
    rw [parsePub_uncompressedHex B hB]
    show (Option.bind (hexValAux 0 (priv.data.drop 2)) fun k =>
      if k = 0 ∨ N ≤ k then none else _) = _
    rw [hpriv2]
    show (if k = 0 ∨ N ≤ k then none
      else match smul k (some B) with
        | none => none
        | some q => some (compressedHex q)) = _
    rw [if_neg (by omega)]
    rcases smul k (some B) with _ | q <;> rfl
  rw [hnoble]
  rcases smul k (some B) with _ | q
  · rfl
  · show Except.ok (ethersSha256 ⟨'0' :: 'x' :: (compressedHex q).drop 2⟩) = _
    rw [compressedHex_drop]

theorem getSharedSecret_neg (priv : String) (k : Nat)
    (hk : hexVal priv = some k) (hpl : priv.length = privateKeyChars)
    (hph : isHexString priv = true) (hk0 : 0 < k) (hkN : k < N)
    (B : Pt) (hB : onC B) :
    getSharedSecret priv (uncompressedKeyString ⟨B.x, -B.y⟩) =
      getSharedSecret priv (uncompressedKeyString B) := by
  have hB' : onC (⟨B.x, -B.y⟩ : Pt) := by
    unfold onC at hB ⊢
    show (-B.y) ^ 2 = B.x ^ 3 + 7
    rw [neg_sq]
    exact hB
  rw [getSharedSecret_spec priv k hk hpl hph hk0 hkN _ hB',
    getSharedSecret_spec priv k hk hpl hph hk0 hkN B hB]
  have hneg : smul k (some (⟨B.x, -B.y⟩ : Pt)) = pneg (smul k (some B)) := by
    have hv : (some (⟨B.x, -B.y⟩ : Pt) : Point) = pneg (some B) := rfl
    rw [hv, smul_pneg]
  rw [hneg]
  rcases smul k (some B) with _ | q <;> rfl

/-- C9: parity-independence of the shared secret: for every valid private key
and every on-curve public key `B`, the derived secret for the point with the
same x-coordinate and negated y equals the secret for `B`, because the secret
hashes only the x-coordinate of the ECDH point (its compressed encoding with
the parity prefix stripped); consequently the secret does not depend on which
y-candidate was chosen when reconstructing a public key from a bare
x-coordinate. -/
theorem sharedSecret_parity_independent (priv : String) (k : Nat)
    (hk : hexVal priv = some k) (hpl : priv.length = privateKeyChars)
    (hph : isHexString priv = true) (hk0 : 0 < k) (hkN : k < N)
    (B : Pt) (hB : onC B) :
    getSharedSecret priv (uncompressedKeyString ⟨B.x, -B.y⟩) =
      getSharedSecret priv (uncompressedKeyString B) :=
  getSharedSecret_neg priv k hk hpl hph hk0 hkN B hB

/-- Witness for C9 at private key 2 and the base point. -/
theorem sharedSecret_parity_independent_witness :
    getSharedSecret (hexZeroPad32 2) (uncompressedKeyString ⟨Gp.x, -Gp.y⟩) =
      getSharedSecret (hexZeroPad32 2) (uncompressedKeyString Gp) :=
  sharedSecret_parity_independent (hexZeroPad32 2) 2 (by decide) (by decide) (by decide)
    (by decide) (by decide) Gp (by decide)

/-! ## The hash input of the shared secret (C3) -/

/-- C3 counterexample: with private key 2 and the base point, the derived
secret is not the hash of the uncompressed coordinate payload (x and y) of
the ECDH point — the code hashes only the x-coordinate. -/
theorem sharedSecret_not_xy_hash :
    getSharedSecret (hexZeroPad32 2) (uncompressedKeyString Gp) ≠
      (match smul 2 (some Gp) with
       | some q =>
         Except.ok (ethersSha256 ⟨'0' :: 'x' :: (natToHex 64 q.x.val ++ natToHex 64 q.y.val)⟩)
       | none => Except.error "Shared secret failed") := by
  decide

theorem sq_eq_cases {a b : F} (h : a ^ 2 = b ^ 2) : a = b ∨ a = -b := by
  have hz : (a - b) * (a + b) = 0 := by linear_combination h
  rcases mul_eq_zero.mp hz with h1 | h1
  · exact Or.inl (sub_eq_zero.mp h1)
  · exact Or.inr (eq_neg_of_add_eq_zero_left h1)

theorem compressedHex_length (q : Pt) : (compressedHex q).length = 66 := by
  unfold compressedHex
  by_cases hp : q.y.val % 2 = 0 <;> simp [hp, natToHex_length]

/-- C3 (amended): the shared secret is the one-way hash of the 32-byte
x-coordinate of the ECDH point — its compressed encoding with the parity
prefix discarded, not the uncompressed coordinate payload; a public key
supplied uncompressed or recovered from a bare x-coordinate yields a
byte-identical secret, while a compressed public-key argument is rejected by
the length validation rather than accepted. -/
theorem sharedSecret_hashes_x_only (priv : String) (k : Nat)
    (hk : hexVal priv = some k) (hpl : priv.length = privateKeyChars)
    (hph : isHexString priv = true) (hk0 : 0 < k) (hkN : k < N)
    (B : Pt) (hB : onC B) :
    (getSharedSecret priv (uncompressedKeyString B) =
      (match smul k (some B) with
       | some q => .ok (ethersSha256 ⟨'0' :: 'x' :: natToHex 64 q.x.val⟩)
       | none => .error "Shared secret failed")) ∧
    (∀ s, getUncompressedFromX B.x.val = .ok s →
      getSharedSecret priv s = getSharedSecret priv (uncompressedKeyString B)) ∧
    (∀ C : Pt, getSharedSecret priv ⟨'0' :: 'x' :: compressedHex C⟩ =
      .error "Invalid public key") := by
  refine ⟨getSharedSecret_spec priv k hk hpl hph hk0 hkN B hB, ?_, ?_⟩
  · intro s hs
    unfold getUncompressedFromX at hs
    have hxB : ((B.x.val : Nat) : F) = B.x := ZMod.natCast_rightInverse B.x
    rw [hxB] at hs
    split at hs
    · rename_i hsq
      rw [Except.ok.injEq] at hs
      rw [← hs]
      have hyy : (powF (B.x ^ 3 + 7) ((P + 1) / 4)) ^ 2 = B.y ^ 2 := by
        rw [hsq]
        exact hB.symm
      rcases sq_eq_cases hyy with h | h
      · rw [h]
        by_cases hpar : B.y.val % 2 = 0
        · rw [if_pos hpar]
        · rw [if_neg hpar]
          exact getSharedSecret_neg priv k hk hpl hph hk0 hkN B hB
      · rw [h]
        by_cases hpar : (-B.y).val % 2 = 0
        · rw [if_pos hpar]
          exact getSharedSecret_neg priv k hk hpl hph hk0 hkN B hB
        · rw [if_neg hpar, neg_neg]
    · exact absurd hs (by simp)
  · intro C
    unfold getSharedSecret
    rw [if_neg (by simp [hpl, hph])]
    rw [if_pos (by
      have hlen : (⟨'0' :: 'x' :: compressedHex C⟩ : String).length = 68 := by
        show ('0' :: 'x' :: compressedHex C).length = 68
        simp [compressedHex_length C]
      simp [hlen, publicKeyChars])]

/-- Witness for C3 (amended): a compressed public-key argument is rejected. -/
theorem sharedSecret_hashes_x_only_witness :
    getSharedSecret (hexZeroPad32 2) ⟨'0' :: 'x' :: compressedHex Gp⟩ =
      .error "Invalid public key" :=
  (sharedSecret_hashes_x_only (hexZeroPad32 2) 2 (by decide) (by decide) (by decide)
    (by decide) (by decide) Gp (by decide)).2.2 Gp

attribute [irreducible] powMAux

/-! ## Bridge to the Mathlib Weierstrass group law

The executable curve operations above are related to Mathlib's affine group
law over `ZMod P` (a field by `P_prime`), which provides associativity and
commutativity of the scalar action. -/

theorem equation_iff_onC (pt : Pt) : secpW.Equation pt.x pt.y ↔ onC pt := by
  rw [WeierstrassCurve.Affine.equation_iff]
  unfold onC
  simp only [secpW]
  constructor <;> intro h <;> linear_combination h

theorem secp_delta : secpW.Δ ≠ 0 := by
  decide

theorem nonsingular_of_onC (pt : Pt) (h : onC pt) : secpW.Nonsingular pt.x pt.y :=
  WeierstrassCurve.Affine.nonsingular_of_Δ_ne_zero secpW ((equation_iff_onC pt).mpr h) secp_delta

/-- The bridge map into Mathlib's bundled nonsingular points. -/
def toW (p : Point) : secpW.Point :=
  match p with
  | none => 0
  | some pt =>
    if h : onC pt then WeierstrassCurve.Affine.Point.some (nonsingular_of_onC pt h) else 0

theorem toW_some (pt : Pt) (h : onC pt) :
    toW (some pt) = WeierstrassCurve.Affine.Point.some (nonsingular_of_onC pt h) :=
  dif_pos h

theorem some_eq_some {x₁ y₁ x₂ y₂ : F} (hx : x₁ = x₂) (hy : y₁ = y₂)
    (h₁ : secpW.Nonsingular x₁ y₁) (h₂ : secpW.Nonsingular x₂ y₂) :
    WeierstrassCurve.Affine.Point.some h₁ = WeierstrassCurve.Affine.Point.some h₂ := by
  subst hx
  subst hy
  rfl

theorem toW_inj (p q : Point) (hp : onCP p) (hq : onCP q) (h : toW p = toW q) : p = q := by
  cases p with
  | none =>
    cases q with
    | none => rfl
    | some qt =>
      rw [show toW none = 0 from rfl, toW_some qt hq] at h
      exact absurd h.symm (WeierstrassCurve.Affine.Point.some_ne_zero _)
  | some pt =>
    cases q with
    | none =>
      rw [show toW none = 0 from rfl, toW_some pt hp] at h
      exact absurd h (WeierstrassCurve.Affine.Point.some_ne_zero _)
    | some qt =>
      rw [toW_some pt hp, toW_some qt hq] at h
      rcases pt with ⟨px, py⟩
      rcases qt with ⟨qx, qy⟩
      injection h with h1 h2
      simp only [Option.some.injEq, Pt.mk.injEq]
      exact ⟨h1, h2⟩

theorem secp_negY (x y : F) : secpW.negY x y = -y := by
  show -y - secpW.a₁ * x - secpW.a₃ = -y
  simp [secpW]

theorem finv_eq_inv (t : F) (ht : t ≠ 0) : finv t = t⁻¹ := by
  unfold finv powF
  rw [powMAux_eq 257 (P - 2) (by norm_num [P]) t]
  have h1 : t ^ (P - 2) * t = 1 := by
    rw [← pow_succ, show P - 2 + 1 = P - 1 from by norm_num [P]]
    exact ZMod.pow_card_sub_one_eq_one ht
  exact eq_inv_of_mul_eq_one_left h1

theorem two_F_ne : (2 : F) ≠ 0 := by decide

theorem toW_pdbl (p : Point) (hp : onCP p) :
    onCP (pdbl p) ∧ toW (pdbl p) = toW p + toW p := by
  cases p with
  | none => exact ⟨trivial, rfl⟩
  | some pt =>
    have hns := nonsingular_of_onC pt hp
    by_cases hy : pt.y = 0
    · have hdbl : pdbl (some pt) = none := by simp [pdbl, hy]
      rw [hdbl, toW_some pt hp]
      refine ⟨trivial, ?_⟩
      show (0 : secpW.Point) = _
      rw [WeierstrassCurve.Affine.Point.add_of_Y_eq rfl (by rw [secp_negY, hy, neg_zero])]
    · have hyne : pt.y ≠ secpW.negY pt.x pt.y := by
        rw [secp_negY]
        intro hc
        apply hy
        have h2y : 2 * pt.y = 0 := by linear_combination hc
        rcases mul_eq_zero.mp h2y with h | h
        · exact absurd h two_F_ne
        · exact h
      have hdbl : pdbl (some pt) = some
          ⟨(3 * pt.x ^ 2 * finv (2 * pt.y)) ^ 2 - 2 * pt.x,
           3 * pt.x ^ 2 * finv (2 * pt.y) *
             (pt.x - ((3 * pt.x ^ 2 * finv (2 * pt.y)) ^ 2 - 2 * pt.x)) - pt.y⟩ := by
        simp [pdbl, hy]
      have hL : secpW.slope pt.x pt.x pt.y pt.y = 3 * pt.x ^ 2 * finv (2 * pt.y) := by
        rw [WeierstrassCurve.Affine.slope_of_Y_ne rfl hyne, secp_negY,
          finv_eq_inv (2 * pt.y) (by
            intro hc
            rcases mul_eq_zero.mp hc with h | h
            · exact absurd h two_F_ne
            · exact hy h)]
        simp only [secpW]
        rw [div_eq_mul_inv]
        ring_nf
      have hsum := @WeierstrassCurve.Affine.Point.add_of_Y_ne F _ secpW pt.x pt.x pt.y pt.y hns hns hyne
      have hnsum := WeierstrassCurve.Affine.nonsingular_add hns hns (fun _ => hyne)
      have hxeq : secpW.addX pt.x pt.x (secpW.slope pt.x pt.x pt.y pt.y) =
          (3 * pt.x ^ 2 * finv (2 * pt.y)) ^ 2 - 2 * pt.x := by
        rw [WeierstrassCurve.Affine.addX, hL]
        simp only [secpW]
        ring
      have hyeq : secpW.addY pt.x pt.x pt.y (secpW.slope pt.x pt.x pt.y pt.y) =
          3 * pt.x ^ 2 * finv (2 * pt.y) *
            (pt.x - ((3 * pt.x ^ 2 * finv (2 * pt.y)) ^ 2 - 2 * pt.x)) - pt.y := by
        rw [WeierstrassCurve.Affine.addY, WeierstrassCurve.Affine.negAddY, secp_negY, hxeq, hL]
        ring
      have honc : onC ⟨(3 * pt.x ^ 2 * finv (2 * pt.y)) ^ 2 - 2 * pt.x,
          3 * pt.x ^ 2 * finv (2 * pt.y) *
            (pt.x - ((3 * pt.x ^ 2 * finv (2 * pt.y)) ^ 2 - 2 * pt.x)) - pt.y⟩ := by
        have := hnsum.1
        rw [hxeq, hyeq] at this
        exact (equation_iff_onC _).mp this
      constructor
      · rw [hdbl]
        show onC _
        exact honc
      · rw [hdbl, toW_some _ honc, toW_some pt hp, hsum]
        exact some_eq_some hxeq.symm hyeq.symm _ _

theorem toW_padd (p q : Point) (hp : onCP p) (hq : onCP q) :
    onCP (padd p q) ∧ toW (padd p q) = toW p + toW q := by
  cases p with
  | none => exact ⟨hq, (zero_add _).symm⟩
  | some pt =>
    cases q with
    | none => exact ⟨hp, (add_zero _).symm⟩
    | some qt =>
      have hns1 := nonsingular_of_onC pt hp
      have hns2 := nonsingular_of_onC qt hq
      by_cases hx : pt.x = qt.x
      · by_cases hy : pt.y = -qt.y
        · have hpq : padd (some pt) (some qt) = none := by simp [padd, hx, hy]
          rw [hpq, toW_some pt hp, toW_some qt hq]
          refine ⟨trivial, ?_⟩
          show (0 : secpW.Point) = _
          rw [WeierstrassCurve.Affine.Point.add_of_Y_eq hx (by rw [secp_negY]; exact hy)]
        · have hyy : pt.y = qt.y := by
            rcases WeierstrassCurve.Affine.Y_eq_of_X_eq ((equation_iff_onC pt).mpr hp)
              ((equation_iff_onC qt).mpr hq) hx with h | h
            · exact h
            · rw [secp_negY] at h
              exact absurd h hy
          have hpteq : pt = qt := by
            rcases pt with ⟨a1, b1⟩
            rcases qt with ⟨a2, b2⟩
            simp only at hx hyy
            rw [hx, hyy]
          subst hpteq
          have hpq : padd (some pt) (some pt) = pdbl (some pt) := by
            simp [padd, hy]
          rw [hpq]
          exact toW_pdbl (some pt) hp
      · have hpq : padd (some pt) (some qt) = some
            ⟨((qt.y - pt.y) * finv (qt.x - pt.x)) ^ 2 - pt.x - qt.x,
             (qt.y - pt.y) * finv (qt.x - pt.x) *
               (pt.x - (((qt.y - pt.y) * finv (qt.x - pt.x)) ^ 2 - pt.x - qt.x)) - pt.y⟩ := by
          simp [padd, hx]
        have hL : secpW.slope pt.x qt.x pt.y qt.y = (qt.y - pt.y) * finv (qt.x - pt.x) := by
          rw [WeierstrassCurve.Affine.slope_of_X_ne hx,
            finv_eq_inv _ (sub_ne_zero.mpr (Ne.symm hx)), div_eq_mul_inv,
            show pt.x - qt.x = -(qt.x - pt.x) from by ring,
            show pt.y - qt.y = -(qt.y - pt.y) from by ring, inv_neg]
          ring
        have hsum := @WeierstrassCurve.Affine.Point.add_of_X_ne F _ secpW pt.x qt.x pt.y qt.y hns1 hns2 hx
        have hnsum := WeierstrassCurve.Affine.nonsingular_add hns1 hns2 (fun h => (hx h).elim)
        have hxeq : secpW.addX pt.x qt.x (secpW.slope pt.x qt.x pt.y qt.y) =
            ((qt.y - pt.y) * finv (qt.x - pt.x)) ^ 2 - pt.x - qt.x := by
          rw [WeierstrassCurve.Affine.addX, hL]
          simp only [secpW]
          ring
        have hyeq : secpW.addY pt.x qt.x pt.y (secpW.slope pt.x qt.x pt.y qt.y) =
            (qt.y - pt.y) * finv (qt.x - pt.x) *
              (pt.x - (((qt.y - pt.y) * finv (qt.x - pt.x)) ^ 2 - pt.x - qt.x)) - pt.y := by
          rw [WeierstrassCurve.Affine.addY, WeierstrassCurve.Affine.negAddY, secp_negY, hxeq, hL]
          ring
        have honc : onC ⟨((qt.y - pt.y) * finv (qt.x - pt.x)) ^ 2 - pt.x - qt.x,
            (qt.y - pt.y) * finv (qt.x - pt.x) *
              (pt.x - (((qt.y - pt.y) * finv (qt.x - pt.x)) ^ 2 - pt.x - qt.x)) - pt.y⟩ := by
          have hsq := hnsum.1
          rw [hxeq, hyeq] at hsq
          exact (equation_iff_onC _).mp hsq
        constructor
        · rw [hpq]
          show onC _
          exact honc
        · rw [hpq, toW_some _ honc, toW_some pt hp, toW_some qt hq, hsum]
          exact some_eq_some hxeq.symm hyeq.symm _ _

theorem toW_smulAux (f : Nat) : ∀ (k : Nat) (p : Point), k < 2 ^ f → onCP p →
    onCP (smulAux f k p) ∧ toW (smulAux f k p) = k • toW p := by
  induction f with
  | zero =>
    intro k p hk hp
    interval_cases k
    exact ⟨trivial, (zero_nsmul _).symm⟩
  | succ f ih =>
    intro k p hk hp
    by_cases hk0 : k = 0
    · subst hk0
      have hs : smulAux (f + 1) 0 p = none := by simp [smulAux]
      rw [hs]
      exact ⟨trivial, (zero_nsmul _).symm⟩
    · obtain ⟨hd1, hd2⟩ := toW_pdbl p hp
      have hk2 : k / 2 < 2 ^ f := by
        have : (2 : Nat) ^ (f + 1) = 2 ^ f * 2 := by ring
        omega
      obtain ⟨hr1, hr2⟩ := ih (k / 2) (pdbl p) hk2 hd1
      by_cases hpar : k % 2 = 1
      · have hs : smulAux (f + 1) k p = padd p (smulAux f (k / 2) (pdbl p)) := by
          simp [smulAux, hk0, hpar]
        obtain ⟨ha1, ha2⟩ := toW_padd p (smulAux f (k / 2) (pdbl p)) hp hr1
        rw [hs]
        refine ⟨ha1, ?_⟩
        rw [ha2, hr2, hd2, ← two_nsmul, ← mul_nsmul (toW p) 2 (k / 2)]
        have hkk : k = 2 * (k / 2) + 1 := by omega
        conv_rhs => rw [hkk]
        rw [succ_nsmul' (toW p) (2 * (k / 2))]
      · have hs : smulAux (f + 1) k p = smulAux f (k / 2) (pdbl p) := by
          simp [smulAux, hk0, hpar]
        rw [hs]
        refine ⟨hr1, ?_⟩
        rw [hr2, hd2, ← two_nsmul, ← mul_nsmul (toW p) 2 (k / 2)]
        have hkk : k = 2 * (k / 2) := by omega
        conv_rhs => rw [hkk]

theorem toW_smul (k : Nat) (p : Point) (hk : k < 2 ^ 257) (hp : onCP p) :
    onCP (smul k p) ∧ toW (smul k p) = k • toW p :=
  toW_smulAux 257 k p hk hp

theorem smul_smul_comm_onC (a b : Nat) (ha : a < 2 ^ 257) (hb : b < 2 ^ 257)
    (p : Point) (hp : onCP p) : smul a (smul b p) = smul b (smul a p) := by
  obtain ⟨hb1, hb2⟩ := toW_smul b p hb hp
  obtain ⟨ha1, ha2⟩ := toW_smul a p ha hp
  obtain ⟨hab1, hab2⟩ := toW_smul a (smul b p) ha hb1
  obtain ⟨hba1, hba2⟩ := toW_smul b (smul a p) hb ha1
  apply toW_inj _ _ hab1 hba1
  rw [hab2, hba2, ha2, hb2, ← mul_nsmul (toW p) b a, ← mul_nsmul (toW p) a b,
    Nat.mul_comm b a]

/-! ## ECDH symmetry (C2) -/

theorem hexZeroPad32_length (v : Nat) : (hexZeroPad32 v).length = privateKeyChars := by
  show ('0' :: 'x' :: natToHex 64 v).length = privateKeyChars
  simp [natToHex_length, privateKeyChars]

theorem hexZeroPad32_isHex (v : Nat) : isHexString (hexZeroPad32 v) = true := by
  show (natToHex 64 v).all isHexDigit = true
  rw [List.all_eq_true]
  exact natToHex_hexDigits 64 v

/-- C2: ECDH symmetry of the shared-secret derivation: for every two valid
key pairs `(a, A = aG)` and `(b, B = bG)`, deriving the shared secret from
`a` and `B` yields the same byte string as deriving it from `b` and `A`. -/
theorem sharedSecret_symm (a b : Nat) (ha0 : 0 < a) (haN : a < N) (hb0 : 0 < b) (hbN : b < N)
    (A B : Pt) (hA : smul a Gpt = some A) (hB : smul b Gpt = some B) :
    getSharedSecret (hexZeroPad32 a) (uncompressedKeyString B) =
      getSharedSecret (hexZeroPad32 b) (uncompressedKeyString A) := by
  have hpow : (2 : Nat) ^ 256 < 2 ^ 257 := by norm_num
  have hN2 : N < 2 ^ 256 := by norm_num [N]
  have ha257 : a < 2 ^ 257 := by omega
  have hb257 : b < 2 ^ 257 := by omega
  have honG : onCP Gpt := by
    show onC Gp
    decide
  have honB : onC B := by
    have h := (toW_smul b Gpt hb257 honG).1
    rw [hB] at h
    exact h
  have honA : onC A := by
    have h := (toW_smul a Gpt ha257 honG).1
    rw [hA] at h
    exact h
  have hva : hexVal (hexZeroPad32 a) = some a := by
    rw [hexVal_hexZeroPad32, Nat.mod_eq_of_lt (by omega)]
  have hvb : hexVal (hexZeroPad32 b) = some b := by
    rw [hexVal_hexZeroPad32, Nat.mod_eq_of_lt (by omega)]
  rw [getSharedSecret_spec (hexZeroPad32 a) a hva (hexZeroPad32_length a)
    (hexZeroPad32_isHex a) ha0 haN B honB,
    getSharedSecret_spec (hexZeroPad32 b) b hvb (hexZeroPad32_length b)
    (hexZeroPad32_isHex b) hb0 hbN A honA]
  have hcomm : smul a (some B) = smul b (some A) := by
    rw [← hB, ← hA, smul_smul_comm_onC a b ha257 hb257 Gpt honG]
  rw [hcomm]

/-! ## Point recovery from the x-coordinate (C4) -/

theorem sqrt_sq (y : F) : (powF (y ^ 2) ((P + 1) / 4)) ^ 2 = y ^ 2 := by
  rw [powF_eq _ _ (by norm_num [P]), ← pow_mul y 2 ((P + 1) / 4),
    ← pow_mul y (2 * ((P + 1) / 4)) 2]
  by_cases hy : y = 0
  · subst hy
    rw [zero_pow (by norm_num [P] : 2 * ((P + 1) / 4) * 2 ≠ 0)]
    exact (zero_pow two_ne_zero).symm
  · have h1 : y ^ (2 * ((P + 1) / 4) * 2) = y ^ (P - 1 + 2) := by
      congr 1
    rw [h1, pow_add, ZMod.pow_card_sub_one_eq_one hy, one_mul]

/-- C4 (amended): recovery from the x-coordinate of a generated public key
returns the point with the same x-coordinate and the even-y candidate; in
particular it reconstructs the point exactly when its y-coordinate is even,
and returns its negation when the y-coordinate is odd. -/
theorem recover_even_y (k : Nat) (hk : k < 2 ^ 257) (p : Pt) (hsm : smul k Gpt = some p) :
    getUncompressedFromX p.x.val =
      .ok (uncompressedKeyString (if p.y.val % 2 = 0 then p else ⟨p.x, -p.y⟩)) := by
  have honG : onCP Gpt := by
    show onC Gp
    decide
  have honp : onC p := by
    have h := (toW_smul k Gpt hk honG).1
    rw [hsm] at h
    exact h
  have hxx : ((p.x.val : Nat) : F) = p.x := ZMod.natCast_rightInverse p.x
  unfold getUncompressedFromX
  rw [hxx]
  have hc : p.x ^ 3 + 7 = p.y ^ 2 := honp.symm
  rw [hc, if_pos (sqrt_sq p.y)]
  rcases sq_eq_cases (sqrt_sq p.y) with hs | hs
  · rw [hs]
  · rw [hs]
    by_cases hy0 : p.y = 0
    · have hpar : p.y.val % 2 = 0 := by
        rw [hy0]
        simp
      have h0 : -p.y = p.y := by rw [hy0, neg_zero]
      rw [h0, if_pos hpar, if_pos hpar]
    · have hvneg : (-p.y).val = P - p.y.val := by
        rw [ZMod.neg_val, if_neg hy0]
      have hyval0 : p.y.val ≠ 0 := fun hc0 => hy0 ((ZMod.val_eq_zero p.y).mp hc0)
      have hylt : p.y.val < P := ZMod.val_lt p.y
      have hPodd : P % 2 = 1 := by decide
      by_cases hpar : p.y.val % 2 = 0
      · have hparneg : ¬ ((-p.y).val % 2 = 0) := by
          rw [hvneg]
          omega
        rw [if_neg hparneg, if_pos hpar, neg_neg]
      · have hparneg : (-p.y).val % 2 = 0 := by
          rw [hvneg]
          omega
        rw [if_pos hparneg, if_neg hpar]

set_option allowUnsafeReducibility true in
attribute [semireducible] powMAux

/-- Witness for C2 at `a = 2`, `b = 3`. -/
theorem sharedSecret_symm_witness :
    getSharedSecret (hexZeroPad32 2) (uncompressedKeyString pt3) =
      getSharedSecret (hexZeroPad32 3) (uncompressedKeyString pt2) :=
  sharedSecret_symm 2 3 (by norm_num) (by norm_num [N]) (by norm_num) (by norm_num [N])
    pt2 pt3 (by decide) (by decide)

/-- C4 counterexample: the public key of private key 6 has an odd
y-coordinate, and recovery from its x-coordinate does not return it exactly
(it returns the even-y candidate, its negation). -/
theorem recover_not_exact :
    smul 6 Gpt = some pt6 ∧
    getUncompressedFromX pt6.x.val ≠ .ok (uncompressedKeyString pt6) := by
  constructor
  · decide
  · decide

/-- Witness for C4 (amended) at `k = 2` (an even-y public key). -/
theorem recover_even_y_witness :
    getUncompressedFromX pt2.x.val =
      .ok (uncompressedKeyString (if pt2.y.val % 2 = 0 then pt2 else ⟨pt2.x, -pt2.y⟩)) :=
  recover_even_y 2 (by norm_num) pt2 (by decide)

/-! ## Scan pipeline correctness (C1) -/

theorem beBytes_lt (w : Nat) : ∀ (n : Nat), ∀ b ∈ beBytes w n, b < 256 := by
  induction w with
  | zero =>
    intro n b hb
    cases hb
  | succ w ih =>
    intro n b hb
    rw [beBytes] at hb
    rcases List.mem_append.mp hb with h | h
    · exact ih (n / 256) b h
    · rcases List.mem_singleton.mp h with rfl
      exact Nat.mod_lt _ (by norm_num)

theorem sha256Round_length (st : List Nat) (kw : Nat × Nat) :
    (sha256Round st kw).length = st.length := by
  unfold sha256Round
  split
  · simp_all
  · rfl

theorem foldl_round_length (l : List (Nat × Nat)) :
    ∀ st, (l.foldl sha256Round st).length = st.length := by
  induction l with
  | nil => intro st; rfl
  | cons x t ih =>
    intro st
    rw [List.foldl_cons, ih, sha256Round_length]

theorem sha256Compress_length (h block : List Nat) (hh : h.length = 8) :
    (sha256Compress h block).length = 8 := by
  unfold sha256Compress
  rw [List.length_map, List.length_zip, foldl_round_length, hh]
  rfl

theorem foldl_compress_length (blocks : List (List Nat)) :
    ∀ h, h.length = 8 → (blocks.foldl sha256Compress h).length = 8 := by
  induction blocks with
  | nil => intro h hh; exact hh
  | cons b t ih =>
    intro h hh
    rw [List.foldl_cons]
    exact ih _ (sha256Compress_length h b hh)

theorem flatten_beBytes_length (H : List Nat) :
    ((H.map (beBytes 4)).flatten).length = 4 * H.length := by
  induction H with
  | nil => rfl
  | cons a t ih =>
    rw [List.map_cons, List.flatten_cons, List.length_append, ih]
    have : (beBytes 4 a).length = 4 := rfl
    rw [this, List.length_cons]
    ring

theorem sha256Bytes_length (msg : List Nat) : (sha256Bytes msg).length = 32 := by
  unfold sha256Bytes
  rw [flatten_beBytes_length, foldl_compress_length _ sha256H0 rfl]

theorem sha256Bytes_lt (msg : List Nat) : ∀ b ∈ sha256Bytes msg, b < 256 := by
  intro b hb
  unfold sha256Bytes at hb
  rcases List.mem_flatten.mp hb with ⟨l, hl, hbl⟩
  rcases List.mem_map.mp hl with ⟨w, _, rfl⟩
  exact beBytes_lt 4 w b hbl

theorem bytesToHex_hexValAux (bs : List Nat) (h : ∀ b ∈ bs, b < 256) :
    ∀ acc, hexValAux acc (bytesToHex bs) = some (bs.foldl (fun a b => a * 256 + b) acc) := by
  induction bs with
  | nil => intro acc; rfl
  | cons b t ih =>
    intro acc
    have hb : b < 256 := h b (List.mem_cons_self b t)
    have hbt : bytesToHex (b :: t) = byteToHex b ++ bytesToHex t := by
      simp [bytesToHex]
    rw [hbt]
    show hexValAux acc (nibbleChar (b / 16 % 16) :: nibbleChar (b % 16) :: bytesToHex t) = _
    rw [hexValAux, hexDigitVal_nibbleChar (b / 16 % 16) (Nat.mod_lt _ (by norm_num))]
    show hexValAux (acc * 16 + b / 16 % 16) (nibbleChar (b % 16) :: bytesToHex t) = _
    rw [hexValAux, hexDigitVal_nibbleChar (b % 16) (Nat.mod_lt _ (by norm_num))]
    show hexValAux ((acc * 16 + b / 16 % 16) * 16 + b % 16) (bytesToHex t) = _
    rw [ih (fun x hx => h x (List.mem_cons_of_mem b hx)), List.foldl_cons]
    have h1 : b / 16 % 16 = b / 16 := Nat.mod_eq_of_lt (by omega)
    rw [h1]
    have h2 : (acc * 16 + b / 16) * 16 + b % 16 = acc * 256 + b := by omega
    rw [h2]

theorem foldl_byte_lt (bs : List Nat) (h : ∀ b ∈ bs, b < 256) :
    ∀ acc, bs.foldl (fun a b => a * 256 + b) acc < (acc + 1) * 256 ^ bs.length := by
  induction bs with
  | nil =>
    intro acc
    simp
  | cons b t ih =>
    intro acc
    rw [List.foldl_cons]
    have hb : b < 256 := h b (List.mem_cons_self b t)
    calc t.foldl (fun a b => a * 256 + b) (acc * 256 + b)
        < (acc * 256 + b + 1) * 256 ^ t.length :=
          ih (fun x hx => h x (List.mem_cons_of_mem b hx)) _
      _ ≤ ((acc + 1) * 256) * 256 ^ t.length := by
          apply Nat.mul_le_mul_right
          omega
      _ = (acc + 1) * 256 ^ (b :: t).length := by
          rw [List.length_cons, pow_succ]
          ring

theorem hexVal_sha_string (bs : List Nat) :
    hexVal ⟨'0' :: 'x' :: bytesToHex (sha256Bytes bs)⟩ =
      some ((sha256Bytes bs).foldl (fun a b => a * 256 + b) 0) ∧
    (sha256Bytes bs).foldl (fun a b => a * 256 + b) 0 < 2 ^ 256 := by
  constructor
  · show hexValAux 0 (bytesToHex (sha256Bytes bs)) = _
    exact bytesToHex_hexValAux _ (sha256Bytes_lt bs) 0
  · have h := foldl_byte_lt _ (sha256Bytes_lt bs) 0
    rw [sha256Bytes_length] at h
    calc (sha256Bytes bs).foldl (fun a b => a * 256 + b) 0
        < (0 + 1) * 256 ^ 32 := h
      _ = 2 ^ 256 := by norm_num

theorem assertValidPoint_uks (p : Pt) (h : onC p) :
    assertValidPoint (uncompressedKeyString p) = .ok () := by
  unfold assertValidPoint
  rw [if_pos ⟨uncompressedKeyString_length p, uncompressedKeyString_isHex p⟩,
    show (uncompressedKeyString p).data.drop 2 = uncompressedHex p from rfl,
    parsePub_uncompressedHex p h]

theorem hexDigitVal_lt (c : Char) (v : Nat) (h : hexDigitVal c = some v) : v < 16 := by
  unfold hexDigitVal at h
  split at h
  · rename_i hc
    injection h with h
    have h9 : c.toNat ≤ '9'.toNat := hc.2
    have e9 : '9'.toNat = 57 := rfl
    have e0 : '0'.toNat = 48 := rfl
    rw [e9] at h9
    rw [e0] at h
    omega
  · split at h
    · rename_i hc
      injection h with h
      have hf : c.toNat ≤ 'f'.toNat := hc.2
      have ef : 'f'.toNat = 102 := rfl
      have ea : 'a'.toNat = 97 := rfl
      rw [ef] at hf
      rw [ea] at h
      omega
    · split at h
      · rename_i hc
        injection h with h
        have hf : c.toNat ≤ 'F'.toNat := hc.2
        have ef : 'F'.toNat = 70 := rfl
        have ea : 'A'.toNat = 65 := rfl
        rw [ef] at hf
        rw [ea] at h
        omega
      · exact absurd h (by simp)

theorem hexToBytes_of_digitsAux : ∀ (n : Nat) (cs : List Char), cs.length ≤ n →
    (∀ c ∈ cs, isHexDigit c = true) →
    cs.length % 2 = 0 → ∃ bs, hexToBytes cs = some bs := by
  intro n
  induction n with
  | zero =>
    intro cs hlen _ _
    match cs with
    | [] => exact ⟨[], rfl⟩
    | c :: t => simp at hlen
  | succ n ih =>
    intro cs hlen hdig hpar
    match cs with
    | [] => exact ⟨[], rfl⟩
    | [c] => simp at hpar
    | c1 :: c2 :: rest =>
      have h1 : isHexDigit c1 = true := hdig c1 (by simp)
      have h2 : isHexDigit c2 = true := hdig c2 (by simp)
      rcases Option.isSome_iff_exists.mp h1 with ⟨v1, hv1⟩
      rcases Option.isSome_iff_exists.mp h2 with ⟨v2, hv2⟩
      have hrl : rest.length % 2 = 0 := by
        simp [List.length_cons] at hpar
        omega
      have hrn : rest.length ≤ n := by
        simp [List.length_cons] at hlen
        omega
      rcases ih rest hrn (fun c hc => hdig c (by simp [hc])) hrl with ⟨bs, hbs⟩
      refine ⟨(v1 * 16 + v2) :: bs, ?_⟩
      simp [hexToBytes, hv1, hv2, hbs]

theorem hexToBytes_of_digits (cs : List Char) (hdig : ∀ c ∈ cs, isHexDigit c = true)
    (hpar : cs.length % 2 = 0) : ∃ bs, hexToBytes cs = some bs :=
  hexToBytes_of_digitsAux cs.length cs le_rfl hdig hpar

theorem ethersSha256_form (l : List Char) (bs : List Nat) (h : hexToBytes l = some bs) :
    ethersSha256 ⟨'0' :: 'x' :: l⟩ = ⟨'0' :: 'x' :: bytesToHex (sha256Bytes bs)⟩ := by
  unfold ethersSha256
  rw [show (⟨'0' :: 'x' :: l⟩ : String).data.drop 2 = l from rfl, h]

theorem exceptBind_ok {ε α β : Type} (x : α) (f : α → Except ε β) :
    Except.bind (Except.ok x) f = f x := rfl

/-- C1 (amended): scanning an announcement generated for spending public key
`S = sG` and viewing public key `V = vG` with the correct viewing private key
`v` yields `isMatch = true` and a derived address equal to the announced
stealth address, and that stealth address is the address of `r·S` — the
spending public key scalar-multiplied by the decrypted random value — not of
`S + rG`. -/
theorem scan_generated_matches (s v e r bn li : Nat)
    (hs0 : 0 < s) (hsN : s < N) (hv0 : 0 < v) (hvN : v < N)
    (he0 : 0 < e) (heN : e < N) (hr0 : 0 < r) (hrN : r < N)
    (S V : Pt) (hS : smul s Gpt = some S) (hV : smul v Gpt = some V)
    (ann : Announcement) (stealth : String)
    (hgen : generateAnnouncement S V e r bn li = some (ann, stealth)) :
    (scanAnnouncement (hexZeroPad32 v) S stealth ann).isMatch = true ∧
    (scanAnnouncement (hexZeroPad32 v) S stealth ann).derivedAddress = some stealth ∧
    ∀ q, smul r (some S) = some q → stealth = ethAddress q := by
  have hN2 : N < 2 ^ 256 := by norm_num [N]
  have hv257 : v < 2 ^ 257 := by omega
  have he257 : e < 2 ^ 257 := by omega
  have honG : onCP Gpt := by
    show onC Gp
    decide
  have honV : onC V := by
    have h := (toW_smul v Gpt hv257 honG).1
    rw [hV] at h
    exact h
  rcases hE : smul e Gpt with _ | E
  · exfalso
    have hnone : generateAnnouncement S V e r bn li = none := by
      simp only [generateAnnouncement, hE, Option.bind]
    rw [hnone] at hgen
    exact Option.noConfusion hgen
  have honE : onC E := by
    have h := (toW_smul e Gpt he257 honG).1
    rw [hE] at h
    exact h
  have hve : hexVal (hexZeroPad32 e) = some e := by
    rw [hexVal_hexZeroPad32, Nat.mod_eq_of_lt (by omega)]
  have hgss := getSharedSecret_spec (hexZeroPad32 e) e hve (hexZeroPad32_length e)
    (hexZeroPad32_isHex e) he0 heN V honV
  rcases hQ : smul e (some V) with _ | Q
  · exfalso
    rw [hQ] at hgss
    have hnone : generateAnnouncement S V e r bn li = none := by
      simp only [generateAnnouncement, hE, Option.bind, hgss, Except.toOption]
    rw [hnone] at hgen
    exact Option.noConfusion hgen
  rw [hQ] at hgss
  rcases hexToBytes_of_digits (natToHex 64 Q.x.val) (natToHex_hexDigits 64 Q.x.val)
    (by rw [natToHex_length]) with ⟨qbs, hqbs⟩
  have hsha := ethersSha256_form (natToHex 64 Q.x.val) qbs hqbs
  obtain ⟨hsv1, hsv2⟩ := hexVal_sha_string qbs
  set sval := (sha256Bytes qbs).foldl (fun a b => a * 256 + b) 0
  have hsecretval : hexVal (ethersSha256 ⟨'0' :: 'x' :: natToHex 64 Q.x.val⟩) = some sval := by
    rw [hsha]
    exact hsv1
  rcases hD : smul r (some S) with _ | D
  · exfalso
    have hnone : generateAnnouncement S V e r bn li = none := by
      simp only [generateAnnouncement, hE, Option.bind, hgss, Except.toOption, hsecretval, hD]
    rw [hnone] at hgen
    exact Option.noConfusion hgen
  have hgen2 : generateAnnouncement S V e r bn li =
      some (⟨⟨'0' :: 'x' :: natToHex 64 E.x.val⟩, hexZeroPad32 (r ^^^ sval), bn, li⟩,
        ethAddress D) := by
    simp only [generateAnnouncement, hE, Option.bind, hgss, Except.toOption, hsecretval, hD]
  rw [hgen2, Option.some.injEq, Prod.mk.injEq] at hgen
  obtain ⟨hann, hsteal⟩ := hgen
  have hpkx : ann.pkx = ⟨'0' :: 'x' :: natToHex 64 E.x.val⟩ :=
    (congrArg Announcement.pkx hann).symm
  have hct : ann.ciphertext = hexZeroPad32 (r ^^^ sval) :=
    (congrArg Announcement.ciphertext hann).symm
  have hvv : hexVal (hexZeroPad32 v) = some v := by
    rw [hexVal_hexZeroPad32, Nat.mod_eq_of_lt (by omega)]
  have hvE : smul v (some E) = some Q := by
    rw [← hE, smul_smul_comm_onC v e hv257 he257 Gpt honG, hV]
    exact hQ
  have hgssE : getSharedSecret (hexZeroPad32 v) (uncompressedKeyString E) =
      Except.ok (ethersSha256 ⟨'0' :: 'x' :: natToHex 64 Q.x.val⟩) := by
    rw [getSharedSecret_spec (hexZeroPad32 v) v hvv (hexZeroPad32_length v)
      (hexZeroPad32_isHex v) hv0 hvN E honE, hvE]
  have honR : onC (if E.y.val % 2 = 0 then E else ⟨E.x, -E.y⟩) := by
    by_cases hpar : E.y.val % 2 = 0
    · rw [if_pos hpar]
      exact honE
    · rw [if_neg hpar]
      show (-E.y) ^ 2 = E.x ^ 3 + 7
      rw [neg_sq]
      exact honE
  have hrec := recover_even_y e he257 E hE
  have havpR := assertValidPoint_uks (if E.y.val % 2 = 0 then E else ⟨E.x, -E.y⟩) honR
  have hgssR : getSharedSecret (hexZeroPad32 v)
      (uncompressedKeyString (if E.y.val % 2 = 0 then E else ⟨E.x, -E.y⟩)) =
      Except.ok (ethersSha256 ⟨'0' :: 'x' :: natToHex 64 Q.x.val⟩) := by
    by_cases hpar : E.y.val % 2 = 0
    · rw [if_pos hpar]
      exact hgssE
    · rw [if_neg hpar, getSharedSecret_neg (hexZeroPad32 v) v hvv (hexZeroPad32_length v)
        (hexZeroPad32_isHex v) hv0 hvN E honE]
      exact hgssE
  have hxE : E.x.val % 2 ^ 256 = E.x.val :=
    Nat.mod_eq_of_lt (lt_trans (ZMod.val_lt E.x) (by norm_num [P]))
  have h1 : hexVal ann.pkx = some E.x.val := by
    rw [hpkx, hexVal_string_natToHex, hxE]
  have hxb : r ^^^ sval < 2 ^ 256 := Nat.xor_lt_two_pow (by omega) hsv2
  have hctv : hexVal ann.ciphertext = some (r ^^^ sval) := by
    rw [hct, hexVal_hexZeroPad32, Nat.mod_eq_of_lt hxb]
  have hmul : mulPublicKey S (hexZeroPad32 r) = Except.ok D := by
    unfold mulPublicKey
    rw [hexVal_hexZeroPad32, Nat.mod_eq_of_lt (by omega : r < 2 ^ 256)]
    show (if r = 0 ∨ N ≤ r then Except.error "Invalid scalar"
      else match smul r (some S) with
        | none => Except.error "Invalid point"
        | some q => Except.ok q) = _
    rw [if_neg (by omega), hD]
  have hpipe : scanPipeline (hexZeroPad32 v) S ann = Except.ok (ethAddress D) := by
    unfold scanPipeline
    rw [h1, hctv]
    show Except.bind (Except.ok E.x.val) _ = _
    rw [exceptBind_ok]
    show Except.bind (getUncompressedFromX E.x.val) _ = _
    rw [hrec, exceptBind_ok]
    show Except.bind (assertValidPoint
      (uncompressedKeyString (if E.y.val % 2 = 0 then E else ⟨E.x, -E.y⟩))) _ = _
    rw [havpR, exceptBind_ok]
    show Except.bind (getSharedSecret (hexZeroPad32 v)
      (uncompressedKeyString (if E.y.val % 2 = 0 then E else ⟨E.x, -E.y⟩))) _ = _
    rw [hgssR, exceptBind_ok]
    show Except.bind (Except.ok (r ^^^ sval)) _ = _
    rw [exceptBind_ok, hsecretval]
    show Except.bind (Except.ok sval) _ = _
    rw [exceptBind_ok]
    show Except.bind (mulPublicKey S (hexZeroPad32 (r ^^^ sval ^^^ sval))) _ = _
    rw [Nat.xor_assoc, Nat.xor_self, Nat.xor_zero, hmul, exceptBind_ok]
  have hscan : scanAnnouncement (hexZeroPad32 v) S stealth ann =
      ⟨ann, true, some stealth, none⟩ := by
    unfold scanAnnouncement
    rw [hpipe]
    show (if ethAddress D = stealth then (⟨ann, true, some (ethAddress D), none⟩ : ScanResult)
      else ⟨ann, false, none, none⟩) = _
    rw [if_pos hsteal, hsteal]
  refine ⟨?_, ?_, ?_⟩
  · rw [hscan]
  · rw [hscan]
  · intro q hq
    rw [Option.some.injEq] at hq
    rw [← hq]
    exact hsteal.symm

/-- C1 counterexample: for spending key 2 (public key `2G`), viewing key 3
(public key `3G`), ephemeral key 5 and random value 7, the generated
announcement scans as a match, but the stealth address differs from the
address of `S + rG` (here `2G + 7G`): the pipeline multiplies the spending
public key by the random value instead of adding `rG` to it. -/
theorem scan_not_SplusRG :
    (match generateAnnouncement pt2 pt3 5 7 1 0 with
     | some (ann, stealth) =>
         (scanAnnouncement (hexZeroPad32 3) pt2 stealth ann).isMatch &&
         (stealth != (match padd (some pt2) (smul 7 Gpt) with
            | some q => ethAddress q
            | none => ""))
     | none => false) = true := by decide

/-- Witness for C1 at spending key 2, viewing key 3, ephemeral key 5 and
random value 7. -/
theorem scan_generated_matches_witness :
    ∃ ann stealth, generateAnnouncement pt2 pt3 5 7 1 0 = some (ann, stealth) ∧
      (scanAnnouncement (hexZeroPad32 3) pt2 stealth ann).isMatch = true ∧
      (scanAnnouncement (hexZeroPad32 3) pt2 stealth ann).derivedAddress = some stealth := by
  rcases hgen : generateAnnouncement pt2 pt3 5 7 1 0 with _ | ⟨ann, stealth⟩
  · exact absurd hgen (by decide)
  · obtain ⟨h1, h2, _⟩ := scan_generated_matches 2 3 5 7 1 0 (by decide) (by decide)
      (by decide) (by decide) (by decide) (by decide) (by decide) (by decide)
      pt2 pt3 (by decide) (by decide) ann stealth hgen
    exact ⟨ann, stealth, rfl, h1, h2⟩

end Umbra
